import Mathlib

/-!
A verification development for the argocd-diff-action pipeline
(application selection, diff normalization, report reconciliation).

The TypeScript sources in src/main.ts are shallowly embedded here:
strings are Lean strings manipulated through their character lists,
the Node `exec` callback outcome is the record `ExecResult`, and the
GitHub comment state is a list of comment bodies.  JavaScript string
primitives (`includes`, `startsWith`, `split`, `trim`, ...) are
embedded as executable functions on character lists.
-/

namespace ArgoCDDiff

/-- Executable test that `pat` occurs as a contiguous factor of `l`. -/
def isFactorOf (pat : List Char) : List Char → Bool
  | [] => pat.isPrefixOf []
  | c :: rest => pat.isPrefixOf (c :: rest) || isFactorOf pat rest

/-- Embedding of JavaScript `String.prototype.includes`. -/
def jsIncludes (s pat : String) : Bool :=
  isFactorOf pat.data s.data

/-- Embedding of JavaScript `String.prototype.startsWith`. -/
def jsStartsWith (s pre : String) : Bool :=
  pre.data.isPrefixOf s.data

/-- Embedding of JavaScript `String.prototype.endsWith`. -/
def jsEndsWith (s suf : String) : Bool :=
  suf.data.isSuffixOf s.data

/-- The whitespace characters recognised by JavaScript `trim` that can occur
in the action's diff text (space, tab, newline, carriage return, vertical
tab, form feed). -/
def jsIsSpace (c : Char) : Bool :=
  c = ' ' || c = '\t' || c = '\n' || c = '\r' || c = '\x0b' || c = '\x0c'

/-- Trim on character lists: drop whitespace from both ends. -/
def trimChars (l : List Char) : List Char :=
  ((l.dropWhile jsIsSpace).reverse.dropWhile jsIsSpace).reverse

/-- Embedding of JavaScript `String.prototype.trim`. -/
def jsTrim (s : String) : String :=
  String.mk (trimChars s.data)

/-- JavaScript `Array.prototype.join` with a one-character separator. -/
def joinSep (sep : Char) : List (List Char) → List Char
  | [] => []
  | [s] => s
  | s :: s2 :: rest => s ++ sep :: joinSep sep (s2 :: rest)

/-- Sync status of an ArgoCD application (`app.status.sync.status`). -/
inductive SyncStatus where
  | Synced
  | OutOfSync
deriving DecidableEq, Repr

/-- `App.spec.source` from src/main.ts. -/
structure AppSource where
  repoURL : String
  path : String
  targetRevision : String
deriving DecidableEq, Repr

/-- `App.spec` from src/main.ts. -/
structure AppSpec where
  source : AppSource
deriving DecidableEq, Repr

/-- `App.metadata` from src/main.ts. -/
structure AppMetadata where
  name : String
deriving DecidableEq, Repr

/-- `App.status.sync` from src/main.ts. -/
structure AppSyncStatus where
  status : SyncStatus
deriving DecidableEq, Repr

/-- `App.status` from src/main.ts. -/
structure AppStatus where
  sync : AppSyncStatus
deriving DecidableEq, Repr

/-- The `App` interface from src/main.ts. -/
structure App where
  metadata : AppMetadata
  spec : AppSpec
  status : AppStatus
deriving DecidableEq, Repr

/-- The data Node's `exec` attaches to a failed invocation that the action
reads back: the exit code and the command line (`ExecException.code` and
`ExecException.cmd`). -/
structure ExecErr where
  code : Int
  cmd : String
deriving DecidableEq, Repr

/-- The `ExecResult` interface from src/main.ts: `err` is present exactly
when the process reported an error (the promise in `execCommand` rejects
with this record), and `stdout` / `stderr` hold the captured streams. -/
structure ExecResult where
  err : Option ExecErr
  stdout : String
  stderr : String
deriving DecidableEq, Repr

/-- The `Diff` interface from src/main.ts: one per-application result of
the diff stage. -/
structure Diff where
  app : App
  diff : String
  error : Option ExecResult
deriving DecidableEq, Repr

/-- One step of the diff stage in `run` (src/main.ts): `await argocd(command)`
resolves when `err` is null, in which case the `try` block finishes without
recording anything; it rejects otherwise, and the `catch` block records the
stdout as a successful diff when non-empty, or a failure record carrying the
whole `ExecResult` when stdout is empty. -/
def diffStep (app : App) (res : ExecResult) : List Diff :=
  match res.err with
  | none => []
  | some _ =>
    if res.stdout ≠ "" then [{ app := app, diff := res.stdout, error := none }]
    else [{ app := app, diff := "", error := some res }]

/-- The diff stage of `run` (src/main.ts): iterate the selected apps in
order (`asyncForEach`), invoking the external tool once per app; the
invocation outcome is abstracted as `oracle`. -/
def runDiffStage (apps : List App) (oracle : App → ExecResult) : List Diff :=
  apps.flatMap fun a => diffStep a (oracle a)

/-- The reconciliation portion of `postDiffComment` (src/main.ts): list the
change request's comments, delete every one whose body contains the header
marker, then create a single new comment with body `newBody` only when
`hasContent` holds (in the source, `filteredDiffs.length` non-zero). -/
def reconcileComments (existing : List String) (marker : String)
    (hasContent : Bool) (newBody : String) : List String :=
  existing.filter (fun c => !(jsIncludes c marker)) ++
    (if hasContent then [newBody] else [])

/-! ### The diff text normalizer `filterDiff`

The embedding works on character lists and treats the newline character as
the only line terminator (the external tool emits newline-separated text).
The two replacement patterns of src/main.ts are deterministic — after each
construct the next pattern character cannot extend the construct — so they
are embedded as straight-line scanners rather than a backtracking engine. -/

/-- Parse one or more decimal digits (the `\d+` construct). -/
def parseDigits1 (l : List Char) : Option (List Char) :=
  if (l.takeWhile (·.isDigit)).isEmpty then none else some (l.dropWhile (·.isDigit))

/-- Parse the optional `(,\d+)?` construct: consumed only when a comma
followed by digits is present. -/
def parseOptCommaDigits (l : List Char) : Option (List Char) :=
  match l with
  | [] => some l
  | a :: r =>
    if a = ',' then
      match parseDigits1 r with
      | some r2 => some r2
      | none => some l
    else some l

/-- Parse the diff change marker `\d+(,\d+)?c\d+(,\d+)?\n` (for example
`12,14c12,15` followed by a newline). -/
def parseChangeMarker (l : List Char) : Option (List Char) :=
  (parseDigits1 l).bind fun l1 =>
  (parseOptCommaDigits l1).bind fun l2 =>
  match l2 with
  | [] => none
  | c2 :: l3 =>
    if c2 = 'c' then
      (parseDigits1 l3).bind fun l4 =>
      (parseOptCommaDigits l4).bind fun l5 =>
      match l5 with
      | [] => none
      | c5 :: l6 => if c5 = '\n' then some l6 else none
    else none

/-- Parse one or more whitespace characters (the `\s+` construct). -/
def parseSpaces1 (l : List Char) : Option (List Char) :=
  if (l.takeWhile jsIsSpace).isEmpty then none else some (l.dropWhile jsIsSpace)

/-- Parse an exact literal. -/
def parseLit (pat l : List Char) : Option (List Char) :=
  if pat.isPrefixOf l then some (l.drop pat.length) else none

/-- Parse one arbitrary non-newline character (the `.` construct). -/
def parseAnyChar (l : List Char) : Option (List Char) :=
  match l with
  | c :: r => if c = '\n' then none else some r
  | [] => none

/-- Consume the rest of the line (the greedy `.*` construct). -/
def dropToEOL (l : List Char) : List Char :=
  l.dropWhile (· ≠ '\n')

/-- Consume an optional newline (the `\n?` construct). -/
def dropOptNewline (l : List Char) : List Char :=
  match l with
  | [] => l
  | c :: r => if c = '\n' then r else l

/-- The escaped instance-label literal of the first replacement pattern. -/
def instLabel : List Char := "argocd.argoproj.io/instance:".data

/-- Matcher for the first replacement pattern of `filterDiff`:
`(\d+(,\d+)?c\d+(,\d+)?\n)?<\s+argocd\.argoproj\.io\/instance:.*\n---\n>\s+argocd\.argoproj\.io\/instance:.*\n?`.
Returns the input remaining after the match.  The optional change-marker
group starts with a digit while the mandatory part starts with `<`, so
committing to the group whenever it parses is faithful to backtracking. -/
def matchInstanceBlock (l : List Char) : Option (List Char) :=
  match (parseChangeMarker l).getD l with
  | [] => none
  | c :: r1 =>
    if c = '<' then
      (parseSpaces1 r1).bind fun r2 =>
      (parseLit instLabel r2).bind fun r3 =>
      match dropToEOL r3 with
      | [] => none
      | c4 :: r4 =>
        if c4 = '\n' then
          (parseLit "---\n".data r4).bind fun r5 =>
          match r5 with
          | [] => none
          | c5 :: r6 =>
            if c5 = '>' then
              (parseSpaces1 r6).bind fun r7 =>
              (parseLit instLabel r7).bind fun r8 =>
              some (dropOptNewline (dropToEOL r8))
            else none
        else none
    else none

/-- Matcher for the second replacement pattern of `filterDiff`:
`(\d+(,\d+)?c\d+(,\d+)?\n)?<\s+app.kubernetes.io\/part-of:.*\n?`.
The two unescaped dots of the label match one arbitrary non-newline
character each. -/
def matchPartOfBlock (l : List Char) : Option (List Char) :=
  match (parseChangeMarker l).getD l with
  | [] => none
  | c :: r1 =>
    if c = '<' then
      (parseSpaces1 r1).bind fun r2 =>
      (parseLit "app".data r2).bind fun r3 =>
      (parseAnyChar r3).bind fun r4 =>
      (parseLit "kubernetes".data r4).bind fun r5 =>
      (parseAnyChar r5).bind fun r6 =>
      (parseLit "io/part-of:".data r6).bind fun r7 =>
      some (dropOptNewline (dropToEOL r7))
    else none

/-- Fuel-indexed scanner implementing global (`g`-flag) replacement by the
empty string: scan left to right, drop each match, and continue scanning
after the match end.  The matchers above always consume at least one
character, so fuel equal to the input length suffices; the guard keeps the
recursion structural in the fuel. -/
def replaceScanF (f : List Char → Option (List Char)) : Nat → List Char → List Char
  | _, [] => []
  | 0, l => l
  | fuel + 1, c :: rest =>
    match f (c :: rest) with
    | some remaining =>
      if remaining.length ≤ rest.length then replaceScanF f fuel remaining
      else c :: replaceScanF f fuel rest
    | none => c :: replaceScanF f fuel rest

/-- Global replacement by the empty string, with adequate fuel. -/
def replaceScan (f : List Char → Option (List Char)) (l : List Char) : List Char :=
  replaceScanF f l.length l

/-- The first `.replace` of `filterDiff`. -/
def replaceInstance (l : List Char) : List Char := replaceScan matchInstanceBlock l

/-- The second `.replace` of `filterDiff`. -/
def replacePartOf (l : List Char) : List Char := replaceScan matchPartOfBlock l

/-- Split into lines, each line keeping its terminating newline (the last
line may lack one). -/
def linesKeep (l : List Char) : List (List Char) :=
  l.foldr
    (fun c acc =>
      if c = '\n' then ['\n'] :: acc
      else
        match acc with
        | [] => [[c]]
        | ln :: rest => (c :: ln) :: rest)
    []

/-- Does this line open a section (`(?=^===== )` boundary of the split)? -/
def isHeaderLineStart (l : List Char) : Bool :=
  "===== ".data.isPrefixOf l

/-- Split a list into groups, starting a new group before each element
satisfying `p`; the initial group collects the elements before the first
boundary and may be empty. -/
def splitBefore (p : α → Bool) : List α → List (List α)
  | [] => [[]]
  | a :: rest =>
    match splitBefore p rest with
    | [] => [[a]]
    | g :: gs => if p a then [] :: (a :: g) :: gs else (a :: g) :: gs

/-- The `diffText.split(/(?=^===== )/m)` of `filterDiff`: pieces delimited
before each line starting with `===== `; a zero-width match at position
zero produces no leading empty piece. -/
def sectionPieces (l : List Char) : List (List Char) :=
  let groups := splitBefore isHeaderLineStart (linesKeep l)
  let groups2 :=
    match groups with
    | [] :: g :: gs => g :: gs
    | gs => gs
  groups2.map List.flatten

/-- The per-section map of `filterDiff`: first replacement, trim, second
replacement, trim. -/
def processSection (sec : List Char) : List Char :=
  trimChars (replacePartOf (trimChars (replaceInstance sec)))

/-- The `^===== .*\/.* ======$` test of `filterDiff`: the whole entry is a
single header line containing a slash. -/
def isPhantomHeader (sec : List Char) : Bool :=
  !(sec.contains '\n') && "===== ".data.isPrefixOf sec &&
    " ======".data.isSuffixOf sec && 13 ≤ sec.length &&
    ((sec.drop 6).take (sec.length - 13)).contains '/'

/-- The `filterDiff` function of src/main.ts: split into sections on header
lines, strip the two label-churn patterns per section, drop empty sections
and phantom headers, and rejoin. -/
def filterDiff (diffText : String) : String :=
  let sections := sectionPieces diffText.data
  let filteredSection := (sections.map processSection).filter (fun sec => sec ≠ [])
  let removeEmptyHeaders := filteredSection.filter (fun sec => !(isPhantomHeader sec))
  String.mk (trimChars (joinSep '\n' removeEmptyHeaders))

/-- The `filteredDiffs` computation of `postDiffComment` (src/main.ts):
normalize each diff text, then keep only the results whose normalized diff
text is non-empty.  Only these render blocks in the report body, and a new
comment is posted only when this list is non-empty. -/
def filteredDiffs (diffs : List Diff) : List Diff :=
  (diffs.map fun d => { d with diff := filterDiff d.diff }).filter fun d => d.diff ≠ ""

/-! ### The path affinity matcher

`path.normalize` of Node (POSIX rules, as on the Linux runners this action
targets) is embedded segment-wise: split on `/`, resolve `.` and `..`
segments against a stack, and restore the absolute / trailing-separator
decorations. -/

/-- JavaScript `String.prototype.split` with a one-character separator
(also Node `path.sep` splitting): keeps empty segments. -/
def splitOnSep (sep : Char) (l : List Char) : List (List Char) :=
  l.foldr
    (fun c acc =>
      if c = sep then [] :: acc
      else
        match acc with
        | [] => [[c]]
        | s :: rest => (c :: s) :: rest)
    [[]]

/-- One step of Node's `normalizeString` segment resolution, on a reversed
stack (head = most recent segment).  `aar` is `allowAboveRoot`: when true
(relative paths) unmatched `..` segments are kept; when false (absolute
paths) they are dropped at the root. -/
def normStep (aar : Bool) (stack : List (List Char)) (seg : List Char) : List (List Char) :=
  if seg = [] then stack
  else if seg = ['.'] then stack
  else if seg = ['.', '.'] then
    match stack with
    | [] => if aar then [['.', '.']] else []
    | top :: rest =>
      if aar then (if top = ['.', '.'] then ['.', '.'] :: top :: rest else rest) else rest
  else seg :: stack

/-- Node's `normalizeString(path, allowAboveRoot, '/')`: the resolved
segments rejoined with `/`, with no leading or trailing separator. -/
def normalizeString (aar : Bool) (l : List Char) : List Char :=
  joinSep '/' (((splitOnSep '/' l).foldl (normStep aar) []).reverse)

/-- Does the character list start with a separator? -/
def headIsSlash (l : List Char) : Bool :=
  match l with
  | [] => false
  | c :: _ => c = '/'

/-- Does the character list end with a separator? -/
def lastIsSlash (l : List Char) : Bool :=
  headIsSlash l.reverse

/-- Node `path.normalize` for POSIX paths, on the character list. -/
def nodeNormalizeChars (l : List Char) : List Char :=
  if l = [] then ['.']
  else
    let isAbs := headIsSlash l
    let trailing := lastIsSlash l
    let core := normalizeString (!isAbs) l
    if core = [] then
      if isAbs then ['/'] else (if trailing then ['.', '/'] else ['.'])
    else
      (if isAbs then ['/'] else []) ++ core ++ (if trailing then ['/'] else [])

/-- Node `path.normalize` for POSIX paths. -/
def nodeNormalize (s : String) : String :=
  String.mk (nodeNormalizeChars s.data)

/-- `getFirstTwoDirectories` from src/main.ts: normalize, split on the
separator, drop empty segments, and rejoin the first two segments (or the
whole segment list when there are fewer than two). -/
def getFirstTwoDirectories (filePath : String) : String :=
  let normalizedPath := nodeNormalize filePath
  let parts := (splitOnSep '/' normalizedPath.data).filter (fun p => p ≠ [])
  if parts.length < 2 then String.mk (joinSep '/' parts)
  else String.mk (joinSep '/' (parts.take 2))

/-- `partOfApp` from src/main.ts: some changed file, once normalized,
starts with the two-segment anchor of the application's normalized source
path. -/
def partOfApp (changedFiles : List String) (app : App) : Bool :=
  let sourcePath := nodeNormalize app.spec.source.path
  let appPath := getFirstTwoDirectories sourcePath
  changedFiles.any fun file => jsStartsWith (nodeNormalize file) appPath

/-- The affinity anchor as the specification words it: the first two path
segments of the normalized source path, the whole normalized path when it
has fewer than two segments.  Stated independently of the code's
`getFirstTwoDirectories` (which normalizes its argument again) so the C5
theorem compares the two. -/
def specAffinityAnchor (sourcePath : String) : String :=
  let parts := (splitOnSep '/' (nodeNormalize sourcePath).data).filter (fun p => p ≠ [])
  String.mk (joinSep '/' (parts.take 2))

/-! ### Idempotence of `nodeNormalize`

This section shows `path.normalize` is idempotent, which identifies the
code's anchor computation (`getFirstTwoDirectories` applied to an already
normalized path) with the specification's "first two segments of the
normalized source path". -/

theorem splitOnSep_cons (sep c : Char) (l : List Char) :
    splitOnSep sep (c :: l) =
      if c = sep then [] :: splitOnSep sep l
      else
        match splitOnSep sep l with
        | [] => [[c]]
        | s :: rest => (c :: s) :: rest := rfl

theorem splitOnSep_ne_nil (sep : Char) (l : List Char) : splitOnSep sep l ≠ [] := by
  induction l with
  | nil => simp [splitOnSep]
  | cons c r ih =>
    rw [splitOnSep_cons]
    by_cases h : c = sep
    · simp [h]
    · simp only [if_neg h]
      cases hsp : splitOnSep sep r with
      | nil => simp
      | cons s rest => simp

theorem sep_not_mem_splitOnSep (sep : Char) (l : List Char) :
    ∀ seg ∈ splitOnSep sep l, sep ∉ seg := by
  induction l with
  | nil =>
    intro seg hseg
    simp [splitOnSep] at hseg
    simp [hseg]
  | cons c r ih =>
    intro seg hseg
    rw [splitOnSep_cons] at hseg
    by_cases h : c = sep
    · rw [if_pos h] at hseg
      rcases List.mem_cons.mp hseg with h1 | h2
      · simp [h1]
      · exact ih seg h2
    · rw [if_neg h] at hseg
      cases hsp : splitOnSep sep r with
      | nil => exact absurd hsp (splitOnSep_ne_nil sep r)
      | cons s rest =>
        rw [hsp] at hseg
        rcases List.mem_cons.mp hseg with h1 | h2
        · subst h1
          intro hmem
          rcases List.mem_cons.mp hmem with h3 | h4
          · exact h h3.symm
          · exact ih s (hsp ▸ List.mem_cons_self s rest) h4
        · exact ih seg (hsp ▸ List.mem_cons_of_mem s h2)

theorem splitOnSep_sepfree (sep : Char) (l : List Char) (h : sep ∉ l) :
    splitOnSep sep l = [l] := by
  induction l with
  | nil => rfl
  | cons c r ih =>
    rw [splitOnSep_cons, if_neg (by intro hc; subst hc; exact h (List.mem_cons_self c r)),
      ih (fun hm => h (List.mem_cons_of_mem c hm))]

theorem splitOnSep_append_sep (sep : Char) (a b : List Char) (h : sep ∉ a) :
    splitOnSep sep (a ++ sep :: b) = a :: splitOnSep sep b := by
  induction a with
  | nil => simp [splitOnSep_cons]
  | cons c a' ih =>
    rw [List.cons_append, splitOnSep_cons,
      if_neg (by intro hc; subst hc; exact h (List.mem_cons_self c a')),
      ih (fun hm => h (List.mem_cons_of_mem c hm))]

theorem splitOnSep_concat_sep (sep : Char) (a : List Char) :
    splitOnSep sep (a ++ [sep]) = splitOnSep sep a ++ [[]] := by
  induction a with
  | nil => simp [splitOnSep_cons, splitOnSep]
  | cons c a' ih =>
    rw [List.cons_append, splitOnSep_cons, splitOnSep_cons, ih]
    by_cases h : c = sep
    · simp [h]
    · simp only [if_neg h]
      cases hsp : splitOnSep sep a' with
      | nil => exact absurd hsp (splitOnSep_ne_nil sep a')
      | cons s rest => simp

theorem joinSep_cons_cons (sep : Char) (s s2 : List Char) (rest : List (List Char)) :
    joinSep sep (s :: s2 :: rest) = s ++ sep :: joinSep sep (s2 :: rest) := rfl

theorem splitOnSep_joinSep (sep : Char) (S : List (List Char)) (hS : S ≠ [])
    (hmem : ∀ s ∈ S, sep ∉ s) : splitOnSep sep (joinSep sep S) = S := by
  induction S with
  | nil => exact absurd rfl hS
  | cons s rest ih =>
    cases rest with
    | nil => exact splitOnSep_sepfree sep s (hmem s (List.mem_cons_self s []))
    | cons s2 r2 =>
      rw [joinSep_cons_cons,
        splitOnSep_append_sep sep s _ (hmem s (List.mem_cons_self s _)),
        ih (by simp) (fun x hx => hmem x (List.mem_cons_of_mem s hx))]

theorem joinSep_concat (sep : Char) (A : List (List Char)) (x : List Char) (hA : A ≠ []) :
    joinSep sep (A ++ [x]) = joinSep sep A ++ sep :: x := by
  induction A with
  | nil => exact absurd rfl hA
  | cons a A' ih =>
    cases A' with
    | nil => rfl
    | cons a2 r =>
      have h1 : (a :: a2 :: r) ++ [x] = a :: ((a2 :: r) ++ [x]) := rfl
      have h2 : (a2 :: r) ++ [x] = a2 :: (r ++ [x]) := rfl
      rw [h1, h2, joinSep_cons_cons, ← h2, ih (by simp), joinSep_cons_cons]
      simp [List.append_assoc]

theorem joinSep_reverse (sep : Char) (S : List (List Char)) :
    (joinSep sep S).reverse = joinSep sep ((S.map List.reverse).reverse) := by
  induction S with
  | nil => rfl
  | cons s rest ih =>
    cases rest with
    | nil => rfl
    | cons s2 r2 =>
      rw [joinSep_cons_cons, List.reverse_append, List.reverse_cons, ih]
      have hr : (List.map List.reverse (s :: s2 :: r2)).reverse
          = (List.map List.reverse (s2 :: r2)).reverse ++ [s.reverse] := by
        rw [List.map_cons, List.reverse_cons]
      rw [hr, joinSep_concat sep ((List.map List.reverse (s2 :: r2)).reverse) s.reverse (by simp)]
      simp [List.append_assoc]

/-- A resolved segment that is neither empty nor a dot segment and holds no
separator: `normStep` always pushes such a segment. -/
def NormalSeg (seg : List Char) : Prop :=
  seg ≠ [] ∧ seg ≠ ['.'] ∧ seg ≠ ['.', '.'] ∧ ('/' : Char) ∉ seg

/-- Shape invariant of the `normStep` stack: normal segments on top of a
run of `..` segments, the latter only for relative paths. -/
def StackOK (aar : Bool) (st : List (List Char)) : Prop :=
  ∃ normals k, st = normals ++ List.replicate k ['.', '.'] ∧
    (∀ s ∈ normals, NormalSeg s) ∧ (aar = false → k = 0)

theorem stackOK_nil (aar : Bool) : StackOK aar [] :=
  ⟨[], 0, rfl, by simp, fun _ => rfl⟩

theorem normStep_push (aar : Bool) (st : List (List Char)) (seg : List Char)
    (hseg : NormalSeg seg) : normStep aar st seg = seg :: st := by
  unfold normStep
  rw [if_neg hseg.1, if_neg hseg.2.1, if_neg hseg.2.2.1]

theorem normStep_stackOK (aar : Bool) (st : List (List Char)) (seg : List Char)
    (hst : StackOK aar st) (hsep : ('/' : Char) ∉ seg) :
    StackOK aar (normStep aar st seg) := by
  obtain ⟨N, k, rfl, hN, hk⟩ := hst
  by_cases h1 : seg = []
  · unfold normStep
    rw [if_pos h1]
    exact ⟨N, k, rfl, hN, hk⟩
  by_cases h2 : seg = ['.']
  · unfold normStep
    rw [if_neg h1, if_pos h2]
    exact ⟨N, k, rfl, hN, hk⟩
  by_cases h3 : seg = ['.', '.']
  · unfold normStep
    rw [if_neg h1, if_neg h2, if_pos h3]
    cases hNc : N with
    | cons n ns =>
      have hn : NormalSeg n := hN n (hNc ▸ List.mem_cons_self n ns)
      simp only [List.cons_append]
      have hrest :
          (if aar then
              (if n = ['.', '.'] then ['.', '.'] :: n :: (ns ++ List.replicate k ['.', '.'])
               else ns ++ List.replicate k ['.', '.'])
            else ns ++ List.replicate k ['.', '.']) = ns ++ List.replicate k ['.', '.'] := by
        cases aar with
        | false => rfl
        | true => simp [if_neg hn.2.2.1]
      rw [hrest]
      exact ⟨ns, k, rfl, fun s hs => hN s (hNc ▸ List.mem_cons_of_mem n hs), hk⟩
    | nil =>
      simp only [List.nil_append]
      cases k with
      | zero =>
        simp only [List.replicate]
        cases haar : aar with
        | true => exact ⟨[], 1, by simp [haar], by simp, by simp [haar]⟩
        | false => exact ⟨[], 0, by simp [haar], by simp, fun _ => rfl⟩
      | succ k' =>
        have haar : aar = true := by
          cases haar : aar with
          | true => rfl
          | false => exact absurd (hk haar) (Nat.succ_ne_zero k')
        subst haar
        rw [List.replicate_succ]
        simp only [if_true, if_pos rfl]
        exact ⟨[], k' + 2, by rw [List.nil_append, List.replicate_succ, List.replicate_succ],
          by simp, by simp⟩
  · rw [normStep_push aar _ seg ⟨h1, h2, h3, hsep⟩]
    exact ⟨seg :: N, k, by simp, fun s hs => by
      rcases List.mem_cons.mp hs with h | h
      · exact h ▸ ⟨h1, h2, h3, hsep⟩
      · exact hN s h, hk⟩

theorem foldl_normStep_stackOK (aar : Bool) (segs : List (List Char))
    (st : List (List Char)) (hst : StackOK aar st)
    (hmem : ∀ s ∈ segs, ('/' : Char) ∉ s) :
    StackOK aar (segs.foldl (normStep aar) st) := by
  induction segs generalizing st with
  | nil => exact hst
  | cons s rest ih =>
    rw [List.foldl_cons]
    exact ih _ (normStep_stackOK aar st s hst (hmem s (List.mem_cons_self s rest)))
      (fun x hx => hmem x (List.mem_cons_of_mem s hx))

theorem stackOK_mem (aar : Bool) (st : List (List Char)) (hst : StackOK aar st) :
    ∀ s ∈ st, s ≠ [] ∧ ('/' : Char) ∉ s := by
  obtain ⟨N, k, rfl, hN, _⟩ := hst
  intro s hs
  rcases List.mem_append.mp hs with h | h
  · exact ⟨(hN s h).1, (hN s h).2.2.2⟩
  · have := List.eq_of_mem_replicate h
    subst this
    refine ⟨by simp, by decide⟩

theorem foldl_normStep_normals (aar : Bool) (N : List (List Char))
    (hN : ∀ s ∈ N, NormalSeg s) (st : List (List Char)) :
    N.foldl (normStep aar) st = N.reverse ++ st := by
  induction N generalizing st with
  | nil => rfl
  | cons s rest ih =>
    rw [List.foldl_cons, normStep_push aar st s (hN s (List.mem_cons_self s rest)),
      ih (fun x hx => hN x (List.mem_cons_of_mem s hx)), List.reverse_cons,
      List.append_assoc]
    rfl

theorem foldl_normStep_reps (k i : Nat) :
    (List.replicate k ['.', '.']).foldl (normStep true) (List.replicate i ['.', '.']) =
      List.replicate (k + i) ['.', '.'] := by
  induction k generalizing i with
  | zero => simp
  | succ k' ih =>
    rw [List.replicate_succ, List.foldl_cons]
    have hstep : normStep true (List.replicate i ['.', '.']) ['.', '.'] =
        List.replicate (i + 1) ['.', '.'] := by
      cases i with
      | zero => rfl
      | succ i' =>
        unfold normStep
        rw [if_neg (by decide), if_neg (by decide), if_pos rfl, List.replicate_succ]
        simp only [if_true, if_pos rfl]
        rw [← List.replicate_succ, ← List.replicate_succ]
    rw [hstep, ih (i + 1)]
    congr 1
    omega

theorem reprocess_stack (aar : Bool) (st : List (List Char)) (hst : StackOK aar st) :
    (st.reverse).foldl (normStep aar) [] = st := by
  obtain ⟨N, k, rfl, hN, hk⟩ := hst
  rw [List.reverse_append, List.reverse_replicate, List.foldl_append]
  have hfirst : (List.replicate k ['.', '.']).foldl (normStep aar) [] =
      List.replicate k ['.', '.'] := by
    cases haar : aar with
    | true => simpa using foldl_normStep_reps k 0
    | false =>
      rw [hk haar]
      rfl
  rw [hfirst,
    foldl_normStep_normals aar N.reverse (fun s hs => hN s (List.mem_reverse.mp hs)) _,
    List.reverse_reverse]

theorem headIsSlash_of_not_mem (l : List Char) (hl : l ≠ []) (h : ('/' : Char) ∉ l) :
    headIsSlash l = false := by
  cases l with
  | nil => exact absurd rfl hl
  | cons c r =>
    simp only [headIsSlash, decide_eq_false_iff_not]
    intro hc
    subst hc
    exact h (List.mem_cons_self _ _)

theorem headIsSlash_append_left (a b : List Char) (ha : a ≠ []) :
    headIsSlash (a ++ b) = headIsSlash a := by
  cases a with
  | nil => exact absurd rfl ha
  | cons c r => rfl

theorem joinSep_cons_ne_nil (sep : Char) (s0 : List Char) (rest : List (List Char))
    (hs0 : s0 ≠ []) : joinSep sep (s0 :: rest) ≠ [] := by
  cases rest with
  | nil => exact hs0
  | cons s2 r2 =>
    rw [joinSep_cons_cons]
    simp

theorem headIsSlash_joinSep (s0 : List Char) (rest : List (List Char)) (hs0 : s0 ≠ [])
    (hmem : ('/' : Char) ∉ s0) : headIsSlash (joinSep '/' (s0 :: rest)) = false := by
  cases rest with
  | nil => exact headIsSlash_of_not_mem s0 hs0 hmem
  | cons s2 r2 =>
    rw [joinSep_cons_cons, headIsSlash_append_left _ _ hs0]
    exact headIsSlash_of_not_mem s0 hs0 hmem

theorem lastIsSlash_joinSep (top : List Char) (rest : List (List Char)) (htop : top ≠ [])
    (hmem : ('/' : Char) ∉ top) :
    lastIsSlash (joinSep '/' ((top :: rest).reverse)) = false := by
  rw [lastIsSlash, joinSep_reverse]
  have h1 : ((top :: rest).reverse.map List.reverse).reverse =
      top.reverse :: rest.map List.reverse := by
    rw [← List.map_reverse, List.reverse_reverse, List.map_cons]
  rw [h1]
  refine headIsSlash_joinSep _ _ (by simpa using htop) (by simpa using hmem)

/-- Renormalizing a decorated nonempty normalized core is the identity. -/
theorem renorm_fixed (isAbs trailing : Bool) (st : List (List Char))
    (hOK : StackOK (!isAbs) st) (hne : st ≠ []) :
    nodeNormalizeChars
        ((if isAbs then ['/'] else []) ++ joinSep '/' st.reverse ++
          (if trailing then ['/'] else [])) =
      (if isAbs then ['/'] else []) ++ joinSep '/' st.reverse ++
        (if trailing then ['/'] else []) := by
  obtain ⟨top, strest, hstc⟩ := List.exists_cons_of_ne_nil hne
  obtain ⟨s0, S', hS⟩ := List.exists_cons_of_ne_nil
    (show st.reverse ≠ [] by simpa using hne)
  have hs0mem : s0 ∈ st := List.mem_reverse.mp (hS ▸ List.mem_cons_self s0 S')
  have hs0 : s0 ≠ [] ∧ ('/' : Char) ∉ s0 := stackOK_mem _ st hOK s0 hs0mem
  have htopmem : top ∈ st := hstc ▸ List.mem_cons_self top strest
  have htop : top ≠ [] ∧ ('/' : Char) ∉ top := stackOK_mem _ st hOK top htopmem
  have f1 : joinSep '/' st.reverse ≠ [] := by
    rw [hS]
    exact joinSep_cons_ne_nil '/' s0 S' hs0.1
  have f2 : headIsSlash (joinSep '/' st.reverse) = false := by
    rw [hS]
    exact headIsSlash_joinSep s0 S' hs0.1 hs0.2
  have f3 : lastIsSlash (joinSep '/' st.reverse) = false := by
    rw [hstc]
    exact lastIsSlash_joinSep top strest htop.1 htop.2
  set core := joinSep '/' st.reverse with hcore
  set O := (if isAbs then ['/'] else []) ++ core ++ (if trailing then ['/'] else [])
    with hO
  have hsplitcore : splitOnSep '/' core = st.reverse := by
    rw [hcore]
    exact splitOnSep_joinSep '/' st.reverse (by simpa using hne)
      (fun s hs => (stackOK_mem _ st hOK s (List.mem_reverse.mp hs)).2)
  have hO_ne : O ≠ [] := by
    rw [hO]
    cases isAbs with
    | true => simp
    | false => simp [f1]
  have habs : headIsSlash O = isAbs := by
    rw [hO]
    cases isAbs with
    | true => rfl
    | false =>
      simp only [Bool.false_eq_true, if_false, List.nil_append]
      rw [headIsSlash_append_left _ _ f1]
      exact f2
  have htrail : lastIsSlash O = trailing := by
    rw [hO, lastIsSlash]
    cases trailing with
    | true =>
      simp only [if_true]
      rw [List.reverse_append, List.reverse_append]
      rfl
    | false =>
      simp only [Bool.false_eq_true, if_false, List.append_nil]
      rw [List.reverse_append, headIsSlash_append_left _ _ (by simpa using f1)]
      exact f3
  have hsplit : splitOnSep '/' O =
      (if isAbs then [[]] else []) ++ st.reverse ++ (if trailing then [[]] else []) := by
    rw [hO]
    cases isAbs with
    | true =>
      cases trailing with
      | true =>
        simp only [if_true]
        have h1 : (['/'] ++ core ++ ['/'] : List Char) = '/' :: (core ++ ['/']) := rfl
        rw [h1, splitOnSep_cons, if_pos rfl, splitOnSep_concat_sep, hsplitcore]
        rfl
      | false =>
        simp only [if_true, Bool.false_eq_true, if_false, List.append_nil]
        have h1 : (['/'] ++ core : List Char) = '/' :: core := rfl
        rw [h1, splitOnSep_cons, if_pos rfl, hsplitcore]
        rfl
    | false =>
      cases trailing with
      | true =>
        simp only [if_true, Bool.false_eq_true, if_false, List.nil_append]
        rw [splitOnSep_concat_sep, hsplitcore]
      | false =>
        simp only [Bool.false_eq_true, if_false, List.nil_append, List.append_nil]
        exact hsplitcore
  have hfold : (splitOnSep '/' O).foldl (normStep (!isAbs)) [] = st := by
    rw [hsplit, List.foldl_append, List.foldl_append]
    have hpre : ((if isAbs then [[]] else []) : List (List Char)).foldl
        (normStep (!isAbs)) [] = [] := by
      cases isAbs with
      | true => rfl
      | false => rfl
    rw [hpre, reprocess_stack (!isAbs) st hOK]
    cases trailing with
    | true => rfl
    | false => rfl
  show nodeNormalizeChars O = O
  simp only [nodeNormalizeChars]
  rw [if_neg hO_ne]
  simp only [habs, htrail]
  have hns : normalizeString (!isAbs) O = core := by
    rw [normalizeString, hfold, ← hcore]
  rw [hns, if_neg f1]

/-- `path.normalize` is idempotent (character-list level). -/
theorem nodeNormalizeChars_idem (l : List Char) :
    nodeNormalizeChars (nodeNormalizeChars l) = nodeNormalizeChars l := by
  by_cases hl : l = []
  · subst hl
    decide
  have hinner : nodeNormalizeChars l =
      (if normalizeString (!(headIsSlash l)) l = [] then
        (if headIsSlash l then ['/'] else (if lastIsSlash l then ['.', '/'] else ['.']))
      else ((if headIsSlash l then ['/'] else []) ++ normalizeString (!(headIsSlash l)) l ++
        (if lastIsSlash l then ['/'] else []))) := by
    simp only [nodeNormalizeChars]
    rw [if_neg hl]
  by_cases hcore : normalizeString (!(headIsSlash l)) l = []
  · rw [hinner, if_pos hcore]
    cases headIsSlash l <;> cases lastIsSlash l <;> decide
  · rw [hinner, if_neg hcore]
    have hOK : StackOK (!(headIsSlash l))
        ((splitOnSep '/' l).foldl (normStep (!(headIsSlash l))) []) :=
      foldl_normStep_stackOK _ _ _ (stackOK_nil _) (sep_not_mem_splitOnSep '/' l)
    have hne : (splitOnSep '/' l).foldl (normStep (!(headIsSlash l))) [] ≠ [] := by
      intro h
      rw [normalizeString, h] at hcore
      exact hcore rfl
    have hjs : normalizeString (!(headIsSlash l)) l =
        joinSep '/' ((splitOnSep '/' l).foldl (normStep (!(headIsSlash l))) []).reverse :=
      rfl
    rw [hjs]
    exact renorm_fixed (headIsSlash l) (lastIsSlash l) _ hOK hne

/-- `path.normalize` is idempotent. -/
theorem nodeNormalize_idem (s : String) :
    nodeNormalize (nodeNormalize s) = nodeNormalize s := by
  show String.mk (nodeNormalizeChars (nodeNormalizeChars s.data)) =
    String.mk (nodeNormalizeChars s.data)
  rw [nodeNormalizeChars_idem]

/-- The code's anchor of an already-normalized path agrees with the
specification's "first two segments of the normalized source path". -/
theorem getFirstTwo_normalize (p : String) :
    getFirstTwoDirectories (nodeNormalize p) = specAffinityAnchor p := by
  simp only [getFirstTwoDirectories, specAffinityAnchor, nodeNormalize_idem]
  by_cases h : ((splitOnSep '/' (nodeNormalize p).data).filter (fun q => q ≠ [])).length < 2
  · rw [if_pos h, List.take_of_length_le (by omega)]
  · rw [if_neg h]

/-! ### C5: the path affinity matcher -/

/-- C5: `partOfApp` holds exactly when some changed file, once normalized,
starts with the affinity anchor — the first two path segments of the
normalized source path (the whole normalized path when it has fewer than
two segments) — and it is false on the empty changed-file list. -/
theorem c5_affects_characterization (changedFiles : List String) (app : App) :
    (partOfApp changedFiles app =
      changedFiles.any fun f =>
        jsStartsWith (nodeNormalize f) (specAffinityAnchor app.spec.source.path)) ∧
      partOfApp [] app = false := by
  constructor
  · simp only [partOfApp]
    rw [getFirstTwo_normalize]
  · rfl

/-! ### A small ECMAScript pattern engine

`filterAppsByName` compiles the user's matcher with `new RegExp`, and
`scrubSecrets` compiles the captured token value.  The engine below embeds
the fragment of the ECMAScript pattern grammar these call sites can
exercise with the patterns this action builds: literals, identity escapes,
the `\d \D \w \W \s \S` classes, `.`, `^`, `$`, grouping, alternation,
negative lookahead, and the `* + ?` greedy quantifiers.  Constructs outside
the fragment (character classes, brace quantifiers, lazy quantifiers,
backreferences, word boundaries) make compilation return `none`.  The
newline character is the only line terminator, and a zero-width match
advances the replacement scan without substituting. -/

/-- The supported one-letter character classes. -/
inductive ClsKind where
  | digit
  | word
  | space
  | notDigit
  | notWord
  | notSpace
deriving DecidableEq, Repr

/-- ECMAScript `\w`: ASCII letters, digits and underscore. -/
def isWordChar (c : Char) : Bool :=
  c.isAlpha || c.isDigit || c = '_'

/-- Interpretation of the supported character classes. -/
def clsTest : ClsKind → Char → Bool
  | .digit, c => c.isDigit
  | .word, c => isWordChar c
  | .space, c => jsIsSpace c
  | .notDigit, c => !c.isDigit
  | .notWord, c => !(isWordChar c)
  | .notSpace, c => !(jsIsSpace c)

/-- Abstract syntax of the supported pattern fragment. -/
inductive RE where
  | eps
  | ch (c : Char)
  | cls (k : ClsKind)
  | anyc
  | bos
  | eos
  | seq (a b : RE)
  | alt (a b : RE)
  | star (a : RE)
  | negLook (a : RE)
deriving DecidableEq, Repr

/-- Structural size of a pattern, used to budget matcher fuel. -/
def reSize : RE → Nat
  | .eps => 1
  | .ch _ => 1
  | .cls _ => 1
  | .anyc => 1
  | .bos => 1
  | .eos => 1
  | .seq a b => reSize a + reSize b + 1
  | .alt a b => reSize a + reSize b + 1
  | .star a => reSize a + 1
  | .negLook a => reSize a + 1

/-- Backtracking matcher in continuation style: `reMatch s fuel r i k`
attempts to match `r` in `s` starting at position `i` and passes the match
end to `k`, trying alternatives in ECMAScript priority order (greedy
quantifiers first).  A star iteration that consumes nothing terminates the
loop, as in ECMAScript. -/
def reMatch (s : List Char) : Nat → RE → Nat → (Nat → Option Nat) → Option Nat
  | 0, _, _, _ => none
  | fuel + 1, r, i, k =>
    match r with
    | .eps => k i
    | .ch c =>
      match s[i]? with
      | some c2 => if c2 = c then k (i + 1) else none
      | none => none
    | .cls kind =>
      match s[i]? with
      | some c2 => if clsTest kind c2 then k (i + 1) else none
      | none => none
    | .anyc =>
      match s[i]? with
      | some c2 => if c2 = '\n' then none else k (i + 1)
      | none => none
    | .bos => if i = 0 then k i else none
    | .eos => if i = s.length then k i else none
    | .seq a b => reMatch s fuel a i (fun j => reMatch s fuel b j k)
    | .alt a b =>
      match reMatch s fuel a i k with
      | some j => some j
      | none => reMatch s fuel b i k
    | .star a =>
      match reMatch s fuel a i
          (fun j => if i < j then reMatch s fuel (.star a) j k else none) with
      | some j => some j
      | none => k i
    | .negLook a =>
      match reMatch s fuel a i (fun j => some j) with
      | some _ => none
      | none => k i

/-- Fuel that is adequate for the patterns the theorems below exercise. -/
def bigFuel (r : RE) (s : List Char) : Nat :=
  (reSize r + 2) * (s.length + 2)

/-- `RegExp.prototype.test`: is there a match starting at some position? -/
def reSearch (r : RE) (s : List Char) : Bool :=
  (List.range (s.length + 1)).any fun i =>
    (reMatch s (bigFuel r s) r i (fun j => some j)).isSome

/-- Does the list start with a quantifier character? -/
def quantFollows : List Char → Bool
  | c :: _ => c = '*' || c = '+' || c = '?'
  | [] => false

mutual

/-- Parse one atom of the pattern grammar. -/
def parseAtom : Nat → List Char → Option (RE × List Char)
  | 0, _ => none
  | fuel + 1, l =>
    match l with
    | [] => none
    | c :: rest =>
      if c = '(' then
        match rest with
        | '?' :: '!' :: r2 =>
          match parseAlt fuel r2 with
          | some (r, ')' :: r3) => some (.negLook r, r3)
          | _ => none
        | '?' :: ':' :: r2 =>
          match parseAlt fuel r2 with
          | some (r, ')' :: r3) => some (r, r3)
          | _ => none
        | _ =>
          match parseAlt fuel rest with
          | some (r, ')' :: r3) => some (r, r3)
          | _ => none
      else if c = ')' ∨ c = '|' ∨ c = '*' ∨ c = '+' ∨ c = '?' ∨ c = '[' ∨
          c = Char.ofNat 123 then none
      else if c = '\\' then
        match rest with
        | [] => none
        | e :: r2 =>
          if e = 'd' then some (.cls .digit, r2)
          else if e = 'D' then some (.cls .notDigit, r2)
          else if e = 'w' then some (.cls .word, r2)
          else if e = 'W' then some (.cls .notWord, r2)
          else if e = 's' then some (.cls .space, r2)
          else if e = 'S' then some (.cls .notSpace, r2)
          else if e = 'n' then some (.ch '\n', r2)
          else if e = 't' then some (.ch '\t', r2)
          else if e = 'r' then some (.ch '\r', r2)
          else if e.isDigit ∨ e = 'b' ∨ e = 'B' ∨ e = 'u' ∨ e = 'x' ∨ e = 'k' then none
          else some (.ch e, r2)
      else if c = '.' then some (.anyc, rest)
      else if c = '^' then some (.bos, rest)
      else if c = '$' then some (.eos, rest)
      else some (.ch c, rest)

/-- Parse an atom with an optional greedy quantifier. -/
def parsePiece : Nat → List Char → Option (RE × List Char)
  | 0, _ => none
  | fuel + 1, l =>
    match parseAtom fuel l with
    | none => none
    | some (r, rest) =>
      match rest with
      | [] => some (r, [])
      | d :: r2 =>
        if d = '*' then (if quantFollows r2 then none else some (.star r, r2))
        else if d = '+' then (if quantFollows r2 then none else some (.seq r (.star r), r2))
        else if d = '?' then (if quantFollows r2 then none else some (.alt r .eps, r2))
        else some (r, d :: r2)

/-- Parse a concatenation of pieces, stopping before `)` or `|`. -/
def parseConcat : Nat → List Char → Option (RE × List Char)
  | 0, _ => none
  | fuel + 1, l =>
    match l with
    | [] => some (.eps, [])
    | c :: rest =>
      if c = ')' ∨ c = '|' then some (.eps, c :: rest)
      else
        match parsePiece fuel (c :: rest) with
        | none => none
        | some (r1, rest1) =>
          match parseConcat fuel rest1 with
          | none => none
          | some (r2, rest2) => some (.seq r1 r2, rest2)

/-- Parse an alternation. -/
def parseAlt : Nat → List Char → Option (RE × List Char)
  | 0, _ => none
  | fuel + 1, l =>
    match parseConcat fuel l with
    | none => none
    | some (r1, rest) =>
      match rest with
      | [] => some (r1, [])
      | d :: r2 =>
        if d = '|' then
          match parseAlt fuel r2 with
          | none => none
          | some (r2e, rest2) => some (.alt r1 r2e, rest2)
        else some (r1, d :: r2)

end

/-- `new RegExp(pat)` for the supported fragment: parse the whole pattern
or report failure. -/
def compileRE (pat : String) : Option RE :=
  match parseAlt (4 * (pat.data.length + 1)) pat.data with
  | some (r, []) => some r
  | _ => none

/-- Replacement scan of `String.prototype.replace` with a `g`-flag pattern:
at each position try the pattern; on a match that consumes at least one
character substitute `rep` and continue after the match, otherwise keep the
character and move on. -/
def reReplaceF (r : RE) (s rep : List Char) : Nat → Nat → List Char
  | 0, i => s.drop i
  | fuel + 1, i =>
    match reMatch s (bigFuel r s) r i (fun j => some j) with
    | some j =>
      if i < j then rep ++ reReplaceF r s rep fuel j
      else
        match s[i]? with
        | some c => c :: reReplaceF r s rep fuel (i + 1)
        | none => []
    | none =>
      match s[i]? with
      | some c => c :: reReplaceF r s rep fuel (i + 1)
      | none => []

/-- `input.replace(new RegExp(pat, 'g'), rep)` over the whole input. -/
def reReplaceAll (r : RE) (s rep : List Char) : List Char :=
  reReplaceF r s rep (s.length + 1) 0

/-! ### The application name filter and the secret scrubber -/

/-- `filterAppsByName` from src/main.ts.  A matcher delimited by slashes is
compiled as a pattern (`none` models a pattern outside the engine's
fragment, where the source would defer entirely to the host regex engine);
a non-empty undelimited matcher is split on commas into literal names; the
empty matcher keeps everything. -/
def filterAppsByName (appsAffected : List App) (appNameMatcher : String) :
    Option (List App) :=
  if jsStartsWith appNameMatcher "/" && jsEndsWith appNameMatcher "/" then
    match compileRE (String.mk ((appNameMatcher.data.drop 1).dropLast)) with
    | some r => some (appsAffected.filter fun app => reSearch r app.metadata.name.data)
    | none => none
  else if appNameMatcher ≠ "" then
    some (appsAffected.filter fun app =>
      (splitOnSep ',' appNameMatcher.data).contains app.metadata.name.data)
  else some appsAffected

/-- The name filter as the specification words it, rules in priority
order: empty matcher is the identity; slash-delimited matchers keep the
names the compiled pattern matches; anything else is an exact member test
against the comma-separated name set.  Stated independently so the C6
theorem compares it with the code's branch order. -/
def specFilterByName (apps : List App) (matcher : String) : Option (List App) :=
  if matcher = "" then some apps
  else if jsStartsWith matcher "/" && jsEndsWith matcher "/" then
    (compileRE (String.mk ((matcher.data.drop 1).dropLast))).map fun r =>
      apps.filter fun app => reSearch r app.metadata.name.data
  else
    some (apps.filter fun app =>
      (splitOnSep ',' matcher.data).contains app.metadata.name.data)

/-- The `input.match` capture of `scrubSecrets`, whose pattern is the flag
text `--auth-token=` followed by `([\w.\S]+)`: scan for the leftmost
occurrence of the flag text followed by at least one non-whitespace
character and return the greedy non-whitespace run (the class `[\w.\S]` is
the class of non-whitespace characters). -/
def extractAuthToken : List Char → Option (List Char)
  | [] => none
  | c :: rest =>
    if "--auth-token=".data.isPrefixOf (c :: rest) then
      let tok := ((c :: rest).drop "--auth-token=".data.length).takeWhile
        (fun ch => !(jsIsSpace ch))
      if tok = [] then extractAuthToken rest else some tok
    else extractAuthToken rest

/-- `scrubSecrets` from src/main.ts: capture the token value after
`--auth-token=` and replace every match of that value — compiled as a
pattern, not as a literal — with `***`; `none` models a token pattern
outside the engine's fragment. -/
def scrubSecrets (input : String) : Option String :=
  match extractAuthToken input.data with
  | none => some input
  | some tok =>
    match compileRE (String.mk tok) with
    | some r => some (String.mk (reReplaceAll r input.data "***".data))
    | none => none

/-! ### Word-character token patterns behave as literal replacement

For a token value made of word characters only, the compiled pattern is a
literal character sequence, the engine's replacement scan coincides with
literal leftmost global replacement, and the token value cannot survive in
the scrubbed output. -/

/-- The pattern matching a literal character sequence. -/
def litSeqRE (cs : List Char) : RE :=
  cs.foldr (fun c acc => .seq (.ch c) acc) .eps

/-- Reference literal global replacement: replace each leftmost occurrence
of `pat` by `rep` and continue after it. -/
def litReplaceF (pat rep : List Char) : Nat → List Char → List Char
  | _, [] => []
  | 0, l => l
  | fuel + 1, c :: rest =>
    if pat ≠ [] ∧ pat.isPrefixOf (c :: rest) then
      rep ++ litReplaceF pat rep fuel (rest.drop (pat.length - 1))
    else c :: litReplaceF pat rep fuel rest

/-- Literal global replacement with adequate fuel. -/
def litReplaceAll (pat rep l : List Char) : List Char :=
  litReplaceF pat rep l.length l

theorem wordChar_ne (c d : Char) (h : isWordChar c = true) (hd : isWordChar d = false) :
    c ≠ d := by
  intro hc
  subst hc
  rw [h] at hd
  cases hd

theorem parseAtom_word (fuel : Nat) (hf : 1 ≤ fuel) (c : Char) (r : List Char)
    (h : isWordChar c = true) : parseAtom fuel (c :: r) = some (.ch c, r) := by
  obtain ⟨f, rfl⟩ : ∃ f, fuel = f + 1 := ⟨fuel - 1, by omega⟩
  have h1 : ¬ c = '(' := wordChar_ne c '(' h (by decide)
  have h2 : ¬ (c = ')' ∨ c = '|' ∨ c = '*' ∨ c = '+' ∨ c = '?' ∨ c = '[' ∨
      c = Char.ofNat 123) := by
    rintro (hc | hc | hc | hc | hc | hc | hc)
    · exact wordChar_ne c ')' h (by decide) hc
    · exact wordChar_ne c '|' h (by decide) hc
    · exact wordChar_ne c '*' h (by decide) hc
    · exact wordChar_ne c '+' h (by decide) hc
    · exact wordChar_ne c '?' h (by decide) hc
    · exact wordChar_ne c '[' h (by decide) hc
    · exact wordChar_ne c (Char.ofNat 123) h (by decide) hc
  have h3 : ¬ c = '\\' := wordChar_ne c '\\' h (by decide)
  have h4 : ¬ c = '.' := wordChar_ne c '.' h (by decide)
  have h5 : ¬ c = '^' := wordChar_ne c '^' h (by decide)
  have h6 : ¬ c = '$' := wordChar_ne c '$' h (by decide)
  simp only [parseAtom]
  rw [if_neg h1, if_neg h2, if_neg h3, if_neg h4, if_neg h5, if_neg h6]

theorem parsePiece_word (fuel : Nat) (hf : 2 ≤ fuel) (c : Char) (r : List Char)
    (h : isWordChar c = true) (hr : ∀ d ∈ r, isWordChar d = true) :
    parsePiece fuel (c :: r) = some (.ch c, r) := by
  obtain ⟨f, rfl⟩ : ∃ f, fuel = f + 1 := ⟨fuel - 1, by omega⟩
  simp only [parsePiece]
  rw [parseAtom_word f (by omega) c r h]
  dsimp only
  cases r with
  | nil => rfl
  | cons d r2 =>
    have hd := hr d (List.mem_cons_self d r2)
    dsimp only
    rw [if_neg (wordChar_ne d '*' hd (by decide)),
      if_neg (wordChar_ne d '+' hd (by decide)),
      if_neg (wordChar_ne d '?' hd (by decide))]

theorem parseConcat_word (tok : List Char) : ∀ fuel : Nat,
    (∀ c ∈ tok, isWordChar c = true) → 2 * tok.length + 1 ≤ fuel →
    parseConcat fuel tok = some (litSeqRE tok, []) := by
  induction tok with
  | nil =>
    intro fuel _ hf
    obtain ⟨f, rfl⟩ : ∃ f, fuel = f + 1 := ⟨fuel - 1, by omega⟩
    rfl
  | cons c rest ih =>
    intro fuel hw hf
    obtain ⟨f, rfl⟩ : ∃ f, fuel = f + 1 := ⟨fuel - 1, by omega⟩
    have hc := hw c (List.mem_cons_self c rest)
    have hrest : ∀ d ∈ rest, isWordChar d = true :=
      fun d hd => hw d (List.mem_cons_of_mem c hd)
    simp only [parseConcat]
    rw [if_neg (by
      rintro (hc2 | hc2)
      · exact wordChar_ne c ')' hc (by decide) hc2
      · exact wordChar_ne c '|' hc (by decide) hc2)]
    rw [parsePiece_word f (by simp at hf; omega) c rest hc hrest]
    dsimp only
    rw [ih f hrest (by simp at hf; omega)]
    rfl

theorem parseAlt_word (tok : List Char) (fuel : Nat)
    (hw : ∀ c ∈ tok, isWordChar c = true) (hf : 2 * tok.length + 2 ≤ fuel) :
    parseAlt fuel tok = some (litSeqRE tok, []) := by
  obtain ⟨f, rfl⟩ : ∃ f, fuel = f + 1 := ⟨fuel - 1, by omega⟩
  simp only [parseAlt]
  rw [parseConcat_word tok f hw (by omega)]

theorem compileRE_word (tok : List Char) (hw : ∀ c ∈ tok, isWordChar c = true) :
    compileRE (String.mk tok) = some (litSeqRE tok) := by
  simp only [compileRE]
  rw [parseAlt_word tok (4 * (tok.length + 1)) hw (by omega)]

theorem reMatch_eps (s : List Char) (fuel i : Nat) (k : Nat → Option Nat)
    (h : 1 ≤ fuel) : reMatch s fuel .eps i k = k i := by
  cases fuel with
  | zero => omega
  | succ f => rfl

theorem bigFuel_pos (r : RE) (s : List Char) : 1 ≤ bigFuel r s :=
  Nat.one_le_iff_ne_zero.mpr (Nat.mul_ne_zero (by omega) (by omega))

theorem reMatch_litSeq (s : List Char) (cs : List Char) :
    ∀ (fuel i : Nat) (k : Nat → Option Nat), cs.length + 1 ≤ fuel →
    reMatch s fuel (litSeqRE cs) i k =
      (if cs.isPrefixOf (s.drop i) then k (i + cs.length) else none) := by
  induction cs with
  | nil =>
    intro fuel i k hf
    have hre : litSeqRE [] = .eps := rfl
    rw [hre, reMatch_eps s fuel i k (by omega)]
    have hpre : ([] : List Char).isPrefixOf (s.drop i) = true := by
      simp [List.isPrefixOf]
    simp [hpre]
  | cons c cs2 ih =>
    intro fuel i k hf
    obtain ⟨f, rfl⟩ : ∃ f, fuel = f + 1 := ⟨fuel - 1, by omega⟩
    have hf2 : cs2.length + 1 ≤ f := by
      simp only [List.length_cons] at hf
      omega
    have h1 : reMatch s (f + 1) (litSeqRE (c :: cs2)) i k
        = reMatch s f (.ch c) i (fun j => reMatch s f (litSeqRE cs2) j k) := rfl
    rw [h1]
    obtain ⟨g, hg⟩ : ∃ g, f = g + 1 := ⟨f - 1, by omega⟩
    cases hsi : s[i]? with
    | none =>
      have hnone : reMatch s f (.ch c) i (fun j => reMatch s f (litSeqRE cs2) j k)
          = none := by
        subst hg
        show (match s[i]? with
          | some d => if d = c then reMatch s (g + 1) (litSeqRE cs2) (i + 1) k else none
          | none => none) = none
        rw [hsi]
      rw [hnone]
      have hdrop : s.drop i = [] :=
        List.drop_eq_nil_iff.mpr (List.getElem?_eq_none_iff.mp hsi)
      rw [hdrop]
      have hpre : (c :: cs2).isPrefixOf ([] : List Char) = false := rfl
      simp [hpre]
    | some c2 =>
      have hlt : i < s.length := by
        by_contra hge
        rw [List.getElem?_eq_none_iff.mpr (by omega)] at hsi
        cases hsi
      have hdrop : s.drop i = c2 :: s.drop (i + 1) := by
        rw [List.drop_eq_getElem_cons hlt]
        have hval : s[i] = c2 := by
          have hh := List.getElem?_eq_getElem hlt
          rw [hh] at hsi
          exact (Option.some_injective _ hsi)
        rw [hval]
      have hstep : reMatch s f (.ch c) i (fun j => reMatch s f (litSeqRE cs2) j k)
          = (if c2 = c then reMatch s f (litSeqRE cs2) (i + 1) k else none) := by
        subst hg
        show (match s[i]? with
          | some d => if d = c then reMatch s (g + 1) (litSeqRE cs2) (i + 1) k else none
          | none => none) = _
        rw [hsi]
      rw [hstep, hdrop]
      by_cases hc2 : c2 = c
      · subst hc2
        rw [if_pos rfl, ih f (i + 1) k hf2]
        have hpre : (c2 :: cs2).isPrefixOf (c2 :: s.drop (i + 1))
            = cs2.isPrefixOf (s.drop (i + 1)) := by
          show (c2 == c2 && cs2.isPrefixOf (s.drop (i + 1))) = cs2.isPrefixOf (s.drop (i + 1))
          simp
        rw [hpre]
        cases hp : cs2.isPrefixOf (s.drop (i + 1)) with
        | false => simp [hp]
        | true =>
          simp only [hp, if_true]
          exact congrArg k (by simp [List.length_cons]; omega)
      · rw [if_neg hc2]
        have hpre : (c :: cs2).isPrefixOf (c2 :: s.drop (i + 1)) = false := by
          show (c == c2 && cs2.isPrefixOf (s.drop (i + 1))) = false
          have hbe : (c == c2) = false := beq_eq_false_iff_ne.mpr (fun h => hc2 h.symm)
          rw [hbe, Bool.false_and]
        rw [hpre]
        simp

theorem reSize_litSeq (cs : List Char) : reSize (litSeqRE cs) = 2 * cs.length + 1 := by
  induction cs with
  | nil => rfl
  | cons c rest ih =>
    show reSize (.seq (.ch c) (litSeqRE rest)) = 2 * (rest.length + 1) + 1
    show reSize (.ch c) + reSize (litSeqRE rest) + 1 = 2 * (rest.length + 1) + 1
    rw [ih]
    show 1 + (2 * rest.length + 1) + 1 = 2 * (rest.length + 1) + 1
    omega

theorem bigFuel_litSeq (tok s : List Char) :
    tok.length + 1 ≤ bigFuel (litSeqRE tok) s := by
  rw [bigFuel, reSize_litSeq]
  have h := Nat.le_mul_of_pos_right (2 * tok.length + 1 + 2) (show 0 < s.length + 2 by omega)
  omega

theorem litReplaceF_fuel (pat rep : List Char) :
    ∀ fuel fuel2 l, l.length ≤ fuel → l.length ≤ fuel2 →
      litReplaceF pat rep fuel l = litReplaceF pat rep fuel2 l := by
  intro fuel
  induction fuel with
  | zero =>
    intro fuel2 l hl _
    have : l = [] := List.length_eq_zero.mp (by omega)
    subst this
    cases fuel2 <;> rfl
  | succ f ih =>
    intro fuel2 l hl hl2
    cases l with
    | nil => cases fuel2 <;> rfl
    | cons c rest =>
      simp only [List.length_cons] at hl hl2
      obtain ⟨f2, rfl⟩ : ∃ f2, fuel2 = f2 + 1 := ⟨fuel2 - 1, by omega⟩
      show (if pat ≠ [] ∧ pat.isPrefixOf (c :: rest) then
          rep ++ litReplaceF pat rep f (rest.drop (pat.length - 1))
        else c :: litReplaceF pat rep f rest) =
        (if pat ≠ [] ∧ pat.isPrefixOf (c :: rest) then
          rep ++ litReplaceF pat rep f2 (rest.drop (pat.length - 1))
        else c :: litReplaceF pat rep f2 rest)
      by_cases hm : pat ≠ [] ∧ pat.isPrefixOf (c :: rest)
      · have hdl : (rest.drop (pat.length - 1)).length ≤ rest.length := by
          rw [List.length_drop]
          omega
        rw [if_pos hm, if_pos hm,
          ih f2 (rest.drop (pat.length - 1)) (by omega) (by omega)]
      · rw [if_neg hm, if_neg hm, ih f2 rest (by omega) (by omega)]

theorem reReplace_litSeq (tok rep s : List Char) (hne : tok ≠ []) :
    ∀ fuel i, reReplaceF (litSeqRE tok) s rep fuel i
      = litReplaceF tok rep fuel (s.drop i) := by
  intro fuel
  induction fuel with
  | zero =>
    intro i
    show s.drop i = litReplaceF tok rep 0 (s.drop i)
    cases hdrop : s.drop i with
    | nil => rfl
    | cons c rest => rfl
  | succ f ih =>
    intro i
    show (match reMatch s (bigFuel (litSeqRE tok) s) (litSeqRE tok) i (fun j => some j) with
      | some j =>
        if i < j then rep ++ reReplaceF (litSeqRE tok) s rep f j
        else
          match s[i]? with
          | some c => c :: reReplaceF (litSeqRE tok) s rep f (i + 1)
          | none => []
      | none =>
        match s[i]? with
        | some c => c :: reReplaceF (litSeqRE tok) s rep f (i + 1)
        | none => []) = _
    rw [reMatch_litSeq s tok (bigFuel (litSeqRE tok) s) i (fun j => some j)
      (bigFuel_litSeq tok s)]
    cases hpre : tok.isPrefixOf (s.drop i) with
    | true =>
      simp only [hpre, if_true]
      have hlen : 1 ≤ tok.length := by
        cases tok with
        | nil => exact absurd rfl hne
        | cons a b => simp
      rw [if_pos (show i < i + tok.length by omega), ih (i + tok.length)]
      obtain ⟨c, rest, hdrop⟩ : ∃ c rest, s.drop i = c :: rest := by
        cases hd : s.drop i with
        | nil =>
          rw [hd] at hpre
          cases tok with
          | nil => exact absurd rfl hne
          | cons a b => cases hpre
        | cons c rest => exact ⟨c, rest, rfl⟩
      rw [hdrop]
      show _ = (if tok ≠ [] ∧ tok.isPrefixOf (c :: rest) then
          rep ++ litReplaceF tok rep f (rest.drop (tok.length - 1))
        else c :: litReplaceF tok rep f rest)
      rw [if_pos ⟨hne, hdrop ▸ hpre⟩]
      have hdd : s.drop (i + tok.length) = rest.drop (tok.length - 1) := by
        rw [← List.drop_drop, hdrop]
        cases htok : tok.length with
        | zero => omega
        | succ n => rfl
      rw [hdd]
    | false =>
      simp only [Bool.false_eq_true, if_false]
      show (match s[i]? with
        | some c => c :: reReplaceF (litSeqRE tok) s rep f (i + 1)
        | none => []) = _
      cases hsi : s[i]? with
      | none =>
        have hdrop : s.drop i = [] :=
          List.drop_eq_nil_iff.mpr (List.getElem?_eq_none_iff.mp hsi)
        rw [hdrop]
        rfl
      | some c =>
        have hlt : i < s.length := by
          by_contra hge
          rw [List.getElem?_eq_none_iff.mpr (by omega)] at hsi
          cases hsi
        have hdrop : s.drop i = c :: s.drop (i + 1) := by
          rw [List.drop_eq_getElem_cons hlt]
          have hval : s[i] = c := by
            have hh := List.getElem?_eq_getElem hlt
            rw [hh] at hsi
            exact Option.some_injective _ hsi
          rw [hval]
        rw [ih (i + 1), hdrop]
        show c :: litReplaceF tok rep f (s.drop (i + 1)) =
          (if tok ≠ [] ∧ tok.isPrefixOf (c :: s.drop (i + 1)) then
            rep ++ litReplaceF tok rep f ((s.drop (i + 1)).drop (tok.length - 1))
          else c :: litReplaceF tok rep f (s.drop (i + 1)))
        rw [if_neg (fun hc => by rw [hdrop] at hpre; rw [hc.2] at hpre; cases hpre)]

theorem isFactorOf_cons (pat : List Char) (x : Char) (X : List Char) :
    isFactorOf pat (x :: X) = (pat.isPrefixOf (x :: X) || isFactorOf pat X) := rfl

theorem isPrefixOf_cons_ne (t0 x : Char) (tr X : List Char) (h : t0 ≠ x) :
    (t0 :: tr).isPrefixOf (x :: X) = false := by
  show ((t0 == x) && tr.isPrefixOf X) = false
  rw [beq_eq_false_iff_ne.mpr h, Bool.false_and]

/-- Literal replacement never creates a new occurrence at a position where
none existed: if a starless word `t` was not a prefix of the unprocessed
text, it is not a prefix of the processed text either. -/
theorem scrub_no_pre (tok : List Char) :
    ∀ (fuel : Nat) (l t : List Char), ('*' : Char) ∉ t → t.isPrefixOf l = false →
      t.isPrefixOf (litReplaceF tok "***".data fuel l) = false := by
  intro fuel
  induction fuel with
  | zero =>
    intro l t hstar ht
    cases l with
    | nil =>
      cases t with
      | nil => simp [List.isPrefixOf] at ht
      | cons d t2 => rfl
    | cons c rest => exact ht
  | succ f ih =>
    intro l t hstar ht
    cases l with
    | nil =>
      cases t with
      | nil => simp [List.isPrefixOf] at ht
      | cons d t2 => rfl
    | cons c rest =>
      by_cases hm : tok ≠ [] ∧ tok.isPrefixOf (c :: rest)
      · have hrw : litReplaceF tok "***".data (f + 1) (c :: rest)
            = '*' :: '*' :: '*' :: litReplaceF tok "***".data f (rest.drop (tok.length - 1)) := by
          show (if tok ≠ [] ∧ tok.isPrefixOf (c :: rest) then _ else _) = _
          rw [if_pos hm]
          rfl
        rw [hrw]
        cases t with
        | nil => simp [List.isPrefixOf] at ht
        | cons d t2 =>
          exact isPrefixOf_cons_ne d '*' t2 _
            (fun hd => hstar (hd ▸ List.mem_cons_self d t2))
      · have hrw : litReplaceF tok "***".data (f + 1) (c :: rest)
            = c :: litReplaceF tok "***".data f rest := by
          show (if tok ≠ [] ∧ tok.isPrefixOf (c :: rest) then _ else _) = _
          rw [if_neg hm]
        rw [hrw]
        cases t with
        | nil => simp [List.isPrefixOf] at ht
        | cons d t2 =>
          by_cases hdc : d = c
          · subst hdc
            show ((d == d) && t2.isPrefixOf (litReplaceF tok "***".data f rest)) = false
            rw [beq_self_eq_true, Bool.true_and]
            have ht2 : t2.isPrefixOf rest = false := by
              have hht : ((d == d) && t2.isPrefixOf rest) = false := ht
              rw [beq_self_eq_true, Bool.true_and] at hht
              exact hht
            exact ih rest t2 (fun hmem => hstar (List.mem_cons_of_mem d hmem)) ht2
          · exact isPrefixOf_cons_ne d c t2 _ hdc

/-- After literal replacement of a non-empty starless pattern, the pattern
does not occur in the result. -/
theorem scrub_no_factor (tok : List Char) (hne : tok ≠ []) (hstar : ('*' : Char) ∉ tok) :
    ∀ (fuel : Nat) (l : List Char), l.length ≤ fuel →
      isFactorOf tok (litReplaceF tok "***".data fuel l) = false := by
  obtain ⟨t0, tr, htok⟩ := List.exists_cons_of_ne_nil hne
  have ht0 : t0 ≠ '*' := fun h => hstar (htok ▸ (h ▸ List.mem_cons_self t0 tr))
  intro fuel
  induction fuel with
  | zero =>
    intro l hl
    have : l = [] := List.length_eq_zero.mp (by omega)
    subst this
    show isFactorOf tok [] = false
    rw [htok]
    rfl
  | succ f ih =>
    intro l hl
    cases l with
    | nil =>
      show isFactorOf tok [] = false
      rw [htok]
      rfl
    | cons c rest =>
      simp only [List.length_cons] at hl
      by_cases hm : tok ≠ [] ∧ tok.isPrefixOf (c :: rest)
      · have hrw : litReplaceF tok "***".data (f + 1) (c :: rest)
            = '*' :: '*' :: '*' :: litReplaceF tok "***".data f (rest.drop (tok.length - 1)) := by
          show (if tok ≠ [] ∧ tok.isPrefixOf (c :: rest) then _ else _) = _
          rw [if_pos hm]
          rfl
        rw [hrw, isFactorOf_cons, isFactorOf_cons, isFactorOf_cons]
        rw [htok, isPrefixOf_cons_ne t0 '*' tr _ ht0, isPrefixOf_cons_ne t0 '*' tr _ ht0,
          isPrefixOf_cons_ne t0 '*' tr _ ht0, Bool.false_or, Bool.false_or, Bool.false_or]
        rw [← htok]
        refine ih (rest.drop (tok.length - 1)) ?_
        have := List.length_drop (tok.length - 1) rest
        omega
      · have hrw : litReplaceF tok "***".data (f + 1) (c :: rest)
            = c :: litReplaceF tok "***".data f rest := by
          show (if tok ≠ [] ∧ tok.isPrefixOf (c :: rest) then _ else _) = _
          rw [if_neg hm]
        have hpre2 : tok.isPrefixOf (c :: rest) = false := by
          by_contra hcon
          exact hm ⟨hne, eq_true_of_ne_false (fun hf => hcon hf)⟩
        have hp := scrub_no_pre tok (f + 1) (c :: rest) tok hstar hpre2
        rw [hrw] at hp
        rw [hrw, isFactorOf_cons, hp, Bool.false_or]
        exact ih rest (by omega)

theorem extractAuthToken_ne_nil : ∀ (l tok : List Char),
    extractAuthToken l = some tok → tok ≠ [] := by
  intro l
  induction l with
  | nil =>
    intro tok h
    cases h
  | cons c rest ih =>
    intro tok h
    simp only [extractAuthToken] at h
    by_cases hp : "--auth-token=".data.isPrefixOf (c :: rest)
    · rw [if_pos hp] at h
      by_cases htk : ((c :: rest).drop "--auth-token=".data.length).takeWhile
          (fun ch => !(jsIsSpace ch)) = []
      · rw [if_pos htk] at h
        exact ih tok h
      · rw [if_neg htk] at h
        cases h
        exact htk
    · rw [if_neg hp] at h
      exact ih tok h

/-- C9 amended: when the captured token value consists of word characters
only (so its pattern is a literal), scrubbing performs literal global
replacement of the token by the redaction marker and the token value does
not occur in the scrubbed output. -/
theorem c9_amended (input : String) (tok : List Char)
    (hex : extractAuthToken input.data = some tok)
    (hw : ∀ c ∈ tok, isWordChar c = true) :
    scrubSecrets input = some (String.mk (litReplaceAll tok "***".data input.data)) ∧
      isFactorOf tok (litReplaceAll tok "***".data input.data) = false := by
  have hne : tok ≠ [] := extractAuthToken_ne_nil input.data tok hex
  have hstar : ('*' : Char) ∉ tok := fun hmem => absurd (hw _ hmem) (by decide)
  refine ⟨?_, ?_⟩
  · simp only [scrubSecrets, hex]
    rw [compileRE_word tok hw]
    dsimp only
    have hrepl : reReplaceAll (litSeqRE tok) input.data "***".data
        = litReplaceAll tok "***".data input.data := by
      rw [reReplaceAll, reReplace_litSeq tok "***".data input.data hne
          (input.data.length + 1) 0,
        List.drop_zero, litReplaceAll,
        litReplaceF_fuel tok "***".data (input.data.length + 1) input.data.length input.data
          (by omega) (by omega)]
    rw [hrepl]
  · rw [litReplaceAll]
    exact scrub_no_factor tok hne hstar input.data.length input.data (le_refl _)

/-! ### C7 amended: idempotence of the normalizer on texts without a `<`

Both replacement patterns of `filterDiff` require a `<` character, so on a
diff text containing none the two global replacements are the identity and
each section is merely trimmed; the remaining pipeline (split on header
lines, drop empty and phantom sections, rejoin, trim) is then shown to be
idempotent. -/

/-- The head of a `dropWhile` result never satisfies the predicate. -/
theorem head_dropWhile_not (p : Char → Bool) :
    ∀ (l : List Char) (c : Char), (l.dropWhile p).head? = some c → p c = false := by
  intro l
  induction l with
  | nil => intro c h; exact absurd h (by simp)
  | cons a t ih =>
    intro c h
    rw [List.dropWhile_cons] at h
    by_cases hpa : p a = true
    · rw [if_pos hpa] at h
      exact ih c h
    · rw [if_neg hpa] at h
      simp only [List.head?_cons, Option.some.injEq] at h
      subst h
      exact eq_false_of_ne_true hpa

/-- `dropWhile` keeps the last element of the list when anything survives. -/
theorem getLast_dropWhile (p : Char → Bool) :
    ∀ (l : List Char), l.dropWhile p ≠ [] → (l.dropWhile p).getLast? = l.getLast? := by
  intro l
  induction l with
  | nil => intro h; exact absurd rfl h
  | cons a t ih =>
    intro h
    rw [List.dropWhile_cons] at h ⊢
    by_cases hpa : p a = true
    · rw [if_pos hpa] at h ⊢
      rw [ih h]
      have ht : t ≠ [] := by
        intro he
        rw [he] at h
        exact h rfl
      cases t with
      | nil => exact absurd rfl ht
      | cons b tb => rw [List.getLast?_cons_cons]
    · rw [if_neg hpa]

/-- The first character of a trimmed list is never whitespace. -/
theorem trimChars_head_ns (l : List Char) :
    ∀ c, (trimChars l).head? = some c → jsIsSpace c = false := by
  intro c hc
  rw [trimChars, List.head?_reverse] at hc
  have hne : ((l.dropWhile jsIsSpace).reverse.dropWhile jsIsSpace) ≠ [] := by
    intro he
    rw [he] at hc
    exact Option.noConfusion hc
  rw [getLast_dropWhile jsIsSpace _ hne, List.getLast?_reverse] at hc
  exact head_dropWhile_not jsIsSpace _ c hc

/-- The last character of a trimmed list is never whitespace. -/
theorem trimChars_last_ns (l : List Char) :
    ∀ c, (trimChars l).getLast? = some c → jsIsSpace c = false := by
  intro c hc
  rw [trimChars, List.getLast?_reverse] at hc
  exact head_dropWhile_not jsIsSpace _ c hc

/-- `dropWhile` is the identity when the head fails the predicate. -/
theorem dropWhile_eq_self_of_head (p : Char → Bool) (l : List Char)
    (h : ∀ c, l.head? = some c → p c = false) : l.dropWhile p = l := by
  cases l with
  | nil => rfl
  | cons a t =>
    rw [List.dropWhile_cons, if_neg]
    simp [h a rfl]

/-- Trimming a list whose two ends are not whitespace changes nothing. -/
theorem trimChars_eq_self (l : List Char)
    (h1 : ∀ c, l.head? = some c → jsIsSpace c = false)
    (h2 : ∀ c, l.getLast? = some c → jsIsSpace c = false) :
    trimChars l = l := by
  rw [trimChars, dropWhile_eq_self_of_head _ l h1,
    dropWhile_eq_self_of_head _ l.reverse
      (fun c hc => h2 c (by rwa [List.head?_reverse] at hc)),
    List.reverse_reverse]

/-- `trimChars` is idempotent. -/
theorem trimChars_idem (l : List Char) : trimChars (trimChars l) = trimChars l :=
  trimChars_eq_self _ (trimChars_head_ns l) (trimChars_last_ns l)

/-- A trailing newline disappears under trimming. -/
theorem trimChars_append_newline (l : List Char) :
    trimChars (l ++ ['\n']) = trimChars l := by
  rw [trimChars, trimChars, List.dropWhile_append]
  by_cases he : (l.dropWhile jsIsSpace).isEmpty
  · rw [if_pos he]
    have h0 : l.dropWhile jsIsSpace = [] := by
      cases hx : l.dropWhile jsIsSpace
      · rfl
      · rw [hx] at he
        exact absurd he (by simp)
    rw [h0]
    decide
  · rw [if_neg he, List.reverse_append]
    have : (['\n'] : List Char).reverse = ['\n'] := rfl
    rw [this, List.singleton_append, List.dropWhile_cons, if_pos (by decide)]

/-- Every character of a trimmed list is a character of the list. -/
theorem trimChars_subset (l : List Char) : ∀ c ∈ trimChars l, c ∈ l := by
  intro c hc
  rw [trimChars, List.mem_reverse] at hc
  have h1 : c ∈ (l.dropWhile jsIsSpace).reverse := (List.dropWhile_sublist _).subset hc
  rw [List.mem_reverse] at h1
  exact (List.dropWhile_sublist _).subset h1

/-- The trimmed list is a contiguous factor of the list. -/
theorem trimChars_infix (l : List Char) :
    ∃ pre suf, l = pre ++ (trimChars l ++ suf) := by
  refine ⟨l.takeWhile jsIsSpace,
    ((l.dropWhile jsIsSpace).reverse.takeWhile jsIsSpace).reverse, ?_⟩
  rw [trimChars, ← List.reverse_append, List.takeWhile_append_dropWhile,
    List.reverse_reverse, List.takeWhile_append_dropWhile]

/-- A successful `parseDigits1` returns a suffix: its characters come from
the input. -/
theorem parseDigits1_subset (l r : List Char) (h : parseDigits1 l = some r) :
    ∀ c ∈ r, c ∈ l := by
  rw [parseDigits1] at h
  by_cases he : (l.takeWhile (·.isDigit)).isEmpty
  · rw [if_pos he] at h
    exact absurd h (by simp)
  · rw [if_neg he] at h
    injection h with h2
    subst h2
    intro c hc
    exact (List.dropWhile_sublist _).subset hc

/-- A successful `parseOptCommaDigits` only drops characters of the input. -/
theorem parseOptCommaDigits_subset (l r : List Char)
    (h : parseOptCommaDigits l = some r) : ∀ c ∈ r, c ∈ l := by
  cases l with
  | nil =>
    simp only [parseOptCommaDigits] at h
    injection h with h2
    subst h2
    exact fun c hc => hc
  | cons a t =>
    simp only [parseOptCommaDigits] at h
    by_cases ha : a = ','
    · rw [if_pos ha] at h
      cases hd : parseDigits1 t with
      | none =>
        rw [hd] at h
        injection h with h2
        subst h2
        exact fun c hc => hc
      | some r2 =>
        rw [hd] at h
        injection h with h2
        subst h2
        intro c hc
        exact List.mem_cons_of_mem _ (parseDigits1_subset t r2 hd c hc)
    · rw [if_neg ha] at h
      injection h with h2
      subst h2
      exact fun c hc => hc

/-- A successful change-marker parse only drops characters of the input. -/
theorem parseChangeMarker_subset (l r : List Char)
    (h : parseChangeMarker l = some r) : ∀ c ∈ r, c ∈ l := by
  rw [parseChangeMarker, Option.bind_eq_some] at h
  obtain ⟨l1, h1, h⟩ := h
  rw [Option.bind_eq_some] at h
  obtain ⟨l2, h2, h⟩ := h
  have s1 : ∀ c ∈ l1, c ∈ l := parseDigits1_subset l l1 h1
  have s2 : ∀ c ∈ l2, c ∈ l1 := parseOptCommaDigits_subset l1 l2 h2
  cases l2 with
  | nil => exact absurd h (by simp)
  | cons c2 l3 =>
    dsimp only at h
    by_cases hc2 : c2 = 'c'
    · rw [if_pos hc2, Option.bind_eq_some] at h
      obtain ⟨l4, h4, h⟩ := h
      rw [Option.bind_eq_some] at h
      obtain ⟨l5, h5, h⟩ := h
      have s4 : ∀ c ∈ l4, c ∈ l3 := parseDigits1_subset l3 l4 h4
      have s5 : ∀ c ∈ l5, c ∈ l4 := parseOptCommaDigits_subset l4 l5 h5
      cases l5 with
      | nil => exact absurd h (by simp)
      | cons c5 l6 =>
        dsimp only at h
        by_cases hc5 : c5 = '\n'
        · rw [if_pos hc5] at h
          injection h with h6
          subst h6
          intro c hc
          have hc4 : c ∈ l4 := s5 c (List.mem_cons_of_mem _ hc)
          have hc3 : c ∈ l3 := s4 c hc4
          have hc2' : c ∈ c2 :: l3 := List.mem_cons_of_mem _ hc3
          exact s1 c (s2 c hc2')
        · rw [if_neg hc5] at h
          exact absurd h (by simp)
    · rw [if_neg hc2] at h
      exact absurd h (by simp)

/-- The first replacement pattern needs a `<`: on input without one it
never matches. -/
theorem matchInstanceBlock_none (l : List Char) (h : ('<' : Char) ∉ l) :
    matchInstanceBlock l = none := by
  have hsub : ∀ c ∈ (parseChangeMarker l).getD l, c ∈ l := by
    cases hp : parseChangeMarker l with
    | none => simp only [Option.getD]; exact fun c hc => hc
    | some r => simp only [Option.getD]; exact parseChangeMarker_subset l r hp
  rw [matchInstanceBlock]
  cases hS : (parseChangeMarker l).getD l with
  | nil => rfl
  | cons c r1 =>
    rw [hS] at hsub
    have hc : c ∈ l := hsub c (List.mem_cons_self c r1)
    dsimp only
    rw [if_neg (fun he => h (by rw [← he]; exact hc))]

/-- The second replacement pattern needs a `<`: on input without one it
never matches. -/
theorem matchPartOfBlock_none (l : List Char) (h : ('<' : Char) ∉ l) :
    matchPartOfBlock l = none := by
  have hsub : ∀ c ∈ (parseChangeMarker l).getD l, c ∈ l := by
    cases hp : parseChangeMarker l with
    | none => simp only [Option.getD]; exact fun c hc => hc
    | some r => simp only [Option.getD]; exact parseChangeMarker_subset l r hp
  rw [matchPartOfBlock]
  cases hS : (parseChangeMarker l).getD l with
  | nil => rfl
  | cons c r1 =>
    rw [hS] at hsub
    have hc : c ∈ l := hsub c (List.mem_cons_self c r1)
    dsimp only
    rw [if_neg (fun he => h (by rw [← he]; exact hc))]

/-- The replacement scan is the identity when the matcher never fires. -/
theorem replaceScanF_nomatch (f : List Char → Option (List Char))
    (hf : ∀ l, ('<' : Char) ∉ l → f l = none) :
    ∀ (fuel : Nat) (l : List Char), ('<' : Char) ∉ l → replaceScanF f fuel l = l := by
  intro fuel
  induction fuel with
  | zero => intro l hl; cases l <;> rfl
  | succ n ih =>
    intro l hl
    cases l with
    | nil => rfl
    | cons c rest =>
      simp only [replaceScanF]
      rw [hf (c :: rest) hl]
      rw [ih rest (fun hm => hl (List.mem_cons_of_mem c hm))]

/-- The first replacement changes nothing on input without a `<`. -/
theorem replaceInstance_nolt (l : List Char) (h : ('<' : Char) ∉ l) :
    replaceInstance l = l := by
  rw [replaceInstance, replaceScan]
  exact replaceScanF_nomatch matchInstanceBlock
    (fun _ h2 => matchInstanceBlock_none _ h2) l.length l h

/-- The second replacement changes nothing on input without a `<`. -/
theorem replacePartOf_nolt (l : List Char) (h : ('<' : Char) ∉ l) :
    replacePartOf l = l := by
  rw [replacePartOf, replaceScan]
  exact replaceScanF_nomatch matchPartOfBlock
    (fun _ h2 => matchPartOfBlock_none _ h2) l.length l h

/-- On a section without a `<`, processing is just trimming. -/
theorem processSection_nolt (sec : List Char) (h : ('<' : Char) ∉ sec) :
    processSection sec = trimChars sec := by
  rw [processSection, replaceInstance_nolt sec h,
    replacePartOf_nolt _ (fun hm => h (trimChars_subset sec '<' hm)),
    trimChars_idem]

/-- Unfolding equation of `linesKeep` on a cons. -/
theorem linesKeep_cons (c : Char) (l : List Char) :
    linesKeep (c :: l) =
      if c = '\n' then ['\n'] :: linesKeep l
      else
        match linesKeep l with
        | [] => [[c]]
        | ln :: rest => (c :: ln) :: rest := rfl

/-- A non-empty text has at least one line. -/
theorem linesKeep_ne_nil (l : List Char) (h : l ≠ []) : linesKeep l ≠ [] := by
  cases l with
  | nil => exact absurd rfl h
  | cons c t =>
    rw [linesKeep_cons]
    by_cases hc : c = '\n'
    · rw [if_pos hc]
      exact List.cons_ne_nil _ _
    · rw [if_neg hc]
      cases linesKeep t with
      | nil => exact List.cons_ne_nil _ _
      | cons ln rest => exact List.cons_ne_nil _ _

/-- The lines concatenate back to the text. -/
theorem linesKeep_flatten (l : List Char) : (linesKeep l).flatten = l := by
  induction l with
  | nil => rfl
  | cons c t ih =>
    rw [linesKeep_cons]
    by_cases hc : c = '\n'
    · subst hc
      rw [if_pos rfl, List.flatten_cons, ih]
      rfl
    · rw [if_neg hc]
      cases hlt : linesKeep t with
      | nil =>
        have ht : t = [] := by
          by_contra hne
          exact linesKeep_ne_nil t hne hlt
        subst ht
        rfl
      | cons ln rest =>
        dsimp only
        rw [hlt, List.flatten_cons] at ih
        rw [List.flatten_cons, List.cons_append, ih]

/-- Splitting lines distributes over concatenation at a newline. -/
theorem linesKeep_append_nl (a b : List Char) :
    linesKeep (a ++ '\n' :: b) = linesKeep (a ++ ['\n']) ++ linesKeep b := by
  induction a with
  | nil =>
    rw [List.nil_append, List.nil_append, linesKeep_cons, if_pos rfl]
    rfl
  | cons c a' ih =>
    rw [List.cons_append, linesKeep_cons, List.cons_append, linesKeep_cons]
    by_cases hc : c = '\n'
    · rw [if_pos hc, if_pos hc, ih, List.cons_append]
    · rw [if_neg hc, if_neg hc, ih]
      have hne : linesKeep (a' ++ ['\n']) ≠ [] := linesKeep_ne_nil _ (by simp)
      cases hlt : linesKeep (a' ++ ['\n']) with
      | nil => exact absurd hlt hne
      | cons ln rest =>
        dsimp only [List.cons_append]

/-- A line list without one head line: the remaining lines are the lines of
some text. -/
theorem linesKeep_drop_one :
    ∀ (l : List Char) (g : List Char) (rest : List (List Char)),
      linesKeep l = g :: rest → ∃ t, linesKeep t = rest := by
  intro l
  induction l with
  | nil => intro g rest h; simp [linesKeep] at h
  | cons c t ih =>
    intro g rest h
    rw [linesKeep_cons] at h
    by_cases hc : c = '\n'
    · rw [if_pos hc] at h
      injection h with h1 h2
      exact ⟨t, h2⟩
    · rw [if_neg hc] at h
      cases hlt : linesKeep t with
      | nil =>
        rw [hlt] at h
        injection h with h1 h2
        exact ⟨[], h2⟩
      | cons ln2 r2 =>
        rw [hlt] at h
        dsimp only at h
        injection h with h1 h2
        subst h2
        exact ih ln2 r2 hlt

/-- The lines of the flattening of a suffix of a line list are that suffix. -/
theorem linesKeep_of_suffix :
    ∀ (gs1 : List (List Char)) (l : List Char) (gs2 : List (List Char)),
      linesKeep l = gs1 ++ gs2 → linesKeep gs2.flatten = gs2 := by
  intro gs1
  induction gs1 with
  | nil =>
    intro l gs2 h
    rw [List.nil_append] at h
    rw [← h, linesKeep_flatten, h]
  | cons g gs1' ih =>
    intro l gs2 h
    obtain ⟨t, ht⟩ := linesKeep_drop_one l g (gs1' ++ gs2) (by rw [h]; rfl)
    exact ih t gs2 ht

/-- The first of several lines carries its terminating newline. -/
theorem linesKeep_head_nl :
    ∀ (l ln : List Char) (rest : List (List Char)),
      linesKeep l = ln :: rest → rest ≠ [] →
      ∃ body, ('\n' : Char) ∉ body ∧ ln = body ++ ['\n'] := by
  intro l
  induction l with
  | nil => intro ln rest h hne; simp [linesKeep] at h
  | cons c t ih =>
    intro ln rest h hne
    rw [linesKeep_cons] at h
    by_cases hc : c = '\n'
    · rw [if_pos hc] at h
      injection h with h1 h2
      exact ⟨[], by simp, by rw [← h1]; rfl⟩
    · rw [if_neg hc] at h
      cases hlt : linesKeep t with
      | nil =>
        rw [hlt] at h
        injection h with h1 h2
        exact absurd h2.symm hne
      | cons ln2 r2 =>
        rw [hlt] at h
        dsimp only at h
        injection h with h1 h2
        obtain ⟨body2, hb2, he2⟩ := ih ln2 r2 hlt (by rw [h2]; exact hne)
        refine ⟨c :: body2, ?_, ?_⟩
        · intro hm
          rcases List.mem_cons.mp hm with hx | hx
          · exact hc hx.symm
          · exact hb2 hx
        · rw [← h1, he2]
          rfl

/-- Any line standing before another line carries its terminating newline. -/
theorem linesKeep_mid_nl :
    ∀ (a : List (List Char)) (l ln : List Char) (b : List (List Char)),
      linesKeep l = a ++ ln :: b → b ≠ [] →
      ∃ body, ('\n' : Char) ∉ body ∧ ln = body ++ ['\n'] := by
  intro a
  induction a with
  | nil =>
    intro l ln b h hb
    exact linesKeep_head_nl l ln b (by simpa using h) hb
  | cons g a' ih =>
    intro l ln b h hb
    obtain ⟨t, ht⟩ := linesKeep_drop_one l g (a' ++ ln :: b) (by rw [h]; rfl)
    exact ih t ln b ht hb

/-- The lines of a newline-terminated single line. -/
theorem linesKeep_single_line (body : List Char) (hb : ('\n' : Char) ∉ body) :
    linesKeep (body ++ ['\n']) = [body ++ ['\n']] := by
  induction body with
  | nil => rfl
  | cons c body' ih =>
    have hc : c ≠ '\n' := fun he => hb (he ▸ List.mem_cons_self _ _)
    have hb' : ('\n' : Char) ∉ body' := fun hm => hb (List.mem_cons_of_mem _ hm)
    rw [List.cons_append, linesKeep_cons, if_neg hc, ih hb']

/-- A list of newline-terminated lines is recovered by `linesKeep` from its
flattening. -/
theorem linesKeep_flatten_of_terminated :
    ∀ (gs : List (List Char)),
      (∀ ln ∈ gs, ∃ body, ('\n' : Char) ∉ body ∧ ln = body ++ ['\n']) →
      linesKeep gs.flatten = gs := by
  intro gs
  induction gs with
  | nil => intro h; rfl
  | cons ln gs' ih =>
    intro h
    obtain ⟨body, hb, he⟩ := h ln (List.mem_cons_self _ _)
    rw [List.flatten_cons, he, List.append_assoc, List.singleton_append,
      linesKeep_append_nl, ih (fun x hx => h x (List.mem_cons_of_mem _ hx)),
      linesKeep_single_line body hb, ← he]
    rfl

/-- A newline-free pattern ignores a trailing newline of the subject. -/
theorem isPrefixOf_append_newline :
    ∀ (pat : List Char), ('\n' : Char) ∉ pat →
      ∀ x : List Char, pat.isPrefixOf (x ++ ['\n']) = pat.isPrefixOf x := by
  intro pat
  induction pat with
  | nil => intro hp x; cases x <;> rfl
  | cons p pt ih =>
    intro hp x
    cases x with
    | nil =>
      have hpn : p ≠ '\n' := fun he => hp (he ▸ List.mem_cons_self p pt)
      have hb : (p == '\n') = false := beq_eq_false_iff_ne.mpr hpn
      simp only [List.nil_append, List.isPrefixOf, hb, Bool.false_and]
    | cons c x' =>
      have hpt : ('\n' : Char) ∉ pt := fun hm => hp (List.mem_cons_of_mem _ hm)
      show ((p == c) && pt.isPrefixOf (x' ++ ['\n'])) = ((p == c) && pt.isPrefixOf x')
      rw [ih hpt x']

/-- The header test ignores a trailing newline. -/
theorem isHeaderLineStart_append_newline (x : List Char) :
    isHeaderLineStart (x ++ ['\n']) = isHeaderLineStart x := by
  rw [isHeaderLineStart, isHeaderLineStart]
  exact isPrefixOf_append_newline _ (by decide) x

/-- A prefix of an extension: prefixes transfer to a longer subject. -/
theorem isHeaderLineStart_of_append (b suf : List Char)
    (h : isHeaderLineStart b = true) : isHeaderLineStart (b ++ suf) = true := by
  rw [isHeaderLineStart] at h ⊢
  rw [List.isPrefixOf_iff_prefix] at h ⊢
  exact h.trans (List.prefix_append b suf)

/-- A newline-free pattern is a prefix of the first line exactly when it is
a prefix of the text. -/
theorem isPrefixOf_head_linesKeep :
    ∀ (l pat fl : List Char), ('\n' : Char) ∉ pat →
      (linesKeep l).head? = some fl → pat.isPrefixOf fl = pat.isPrefixOf l := by
  intro l
  induction l with
  | nil => intro pat fl hp h; simp [linesKeep] at h
  | cons c t ih =>
    intro pat fl hp h
    rw [linesKeep_cons] at h
    by_cases hc : c = '\n'
    · rw [if_pos hc] at h
      simp only [List.head?_cons, Option.some.injEq] at h
      subst h
      subst hc
      cases pat with
      | nil => rfl
      | cons p pt =>
        have hpn : p ≠ '\n' := fun he => hp (he ▸ List.mem_cons_self p pt)
        have hb : (p == '\n') = false := beq_eq_false_iff_ne.mpr hpn
        simp only [List.isPrefixOf, hb, Bool.false_and]
    · rw [if_neg hc] at h
      cases hlt : linesKeep t with
      | nil =>
        rw [hlt] at h
        simp only [List.head?_cons, Option.some.injEq] at h
        subst h
        have ht : t = [] := by
          by_contra hne
          exact linesKeep_ne_nil t hne hlt
        subst ht
        rfl
      | cons ln rest =>
        rw [hlt] at h
        dsimp only at h
        simp only [List.head?_cons, Option.some.injEq] at h
        subst h
        cases pat with
        | nil => rfl
        | cons p pt =>
          have hpt : ('\n' : Char) ∉ pt := fun hm => hp (List.mem_cons_of_mem _ hm)
          simp only [List.isPrefixOf]
          rw [ih pt ln hpt (by rw [hlt]; rfl)]

/-- The first line opens a section exactly when the text does. -/
theorem isHeaderLineStart_head_linesKeep (l fl : List Char)
    (h : (linesKeep l).head? = some fl) :
    isHeaderLineStart fl = isHeaderLineStart l := by
  rw [isHeaderLineStart, isHeaderLineStart]
  exact isPrefixOf_head_linesKeep l _ fl (by decide) h

/-- Each line after the first stands right after a newline of the text, and
its header flag is the flag of the corresponding suffix. -/
theorem tailLine_split :
    ∀ (l ln : List Char), ln ∈ (linesKeep l).drop 1 →
      ∃ a b, l = a ++ '\n' :: b ∧ isHeaderLineStart ln = isHeaderLineStart b := by
  intro l
  induction l with
  | nil => intro ln h; simp [linesKeep] at h
  | cons c t ih =>
    intro ln h
    rw [linesKeep_cons] at h
    by_cases hc : c = '\n'
    · rw [if_pos hc] at h
      simp only [List.drop_succ_cons, List.drop_zero] at h
      subst hc
      cases hlt : linesKeep t with
      | nil => rw [hlt] at h; simp at h
      | cons fl rest =>
        rw [hlt] at h
        rcases List.mem_cons.mp h with hh | hrest
        · subst hh
          exact ⟨[], t, rfl, isHeaderLineStart_head_linesKeep t ln (by rw [hlt]; rfl)⟩
        · have h2 : ln ∈ (linesKeep t).drop 1 := by
            rw [hlt]
            simpa using hrest
          obtain ⟨a, b, hab, hfl⟩ := ih ln h2
          exact ⟨'\n' :: a, b, by rw [hab]; rfl, hfl⟩
    · rw [if_neg hc] at h
      cases hlt : linesKeep t with
      | nil => rw [hlt] at h; simp at h
      | cons fl rest =>
        rw [hlt] at h
        dsimp only at h
        simp only [List.drop_succ_cons, List.drop_zero] at h
        have h2 : ln ∈ (linesKeep t).drop 1 := by
          rw [hlt]
          simpa using h
        obtain ⟨a, b, hab, hfl⟩ := ih ln h2
        exact ⟨c :: a, b, by rw [hab]; rfl, hfl⟩

/-- No suffix of the text standing right after a newline opens a section. -/
def NoInternalHeader (s : List Char) : Prop :=
  ∀ a b, s = a ++ '\n' :: b → isHeaderLineStart b = false

/-- Under `NoInternalHeader`, every line after the first is a non-header
line. -/
theorem tail_lines_nonheader (l : List Char) (h : NoInternalHeader l) :
    ∀ ln ∈ (linesKeep l).drop 1, isHeaderLineStart ln = false := by
  intro ln hln
  obtain ⟨a, b, hab, hfl⟩ := tailLine_split l ln hln
  rw [hfl]
  exact h a b hab

/-- Conversely, a header suffix after a newline yields a header line after
the first. -/
theorem split_gives_tail_line :
    ∀ (A s B : List Char), s = A ++ '\n' :: B → isHeaderLineStart B = true →
      ∃ ln, ln ∈ (linesKeep s).drop 1 ∧ isHeaderLineStart ln = true := by
  intro A
  induction A with
  | nil =>
    intro s B hs hB
    have hBne : B ≠ [] := by
      intro he
      rw [he] at hB
      exact absurd hB (by decide)
    subst hs
    rw [List.nil_append, linesKeep_cons, if_pos rfl]
    cases hlt : linesKeep B with
    | nil => exact absurd hlt (linesKeep_ne_nil B hBne)
    | cons fl rest =>
      refine ⟨fl, ?_, ?_⟩
      · simp
      · rw [isHeaderLineStart_head_linesKeep B fl (by rw [hlt]; rfl)]
        exact hB
  | cons c A' ih =>
    intro s B hs hB
    obtain ⟨ln, hmem, hflag⟩ := ih (A' ++ '\n' :: B) B rfl hB
    refine ⟨ln, ?_, hflag⟩
    subst hs
    rw [List.cons_append, linesKeep_cons]
    by_cases hc : c = '\n'
    · rw [if_pos hc]
      simp only [List.drop_succ_cons, List.drop_zero]
      exact List.mem_of_mem_drop hmem
    · rw [if_neg hc]
      cases hlt : linesKeep (A' ++ '\n' :: B) with
      | nil => rw [hlt] at hmem; simp at hmem
      | cons fl rest =>
        rw [hlt] at hmem
        dsimp only
        simp only [List.drop_succ_cons, List.drop_zero] at hmem ⊢
        exact hmem

/-- `NoInternalHeader` survives appending a final newline. -/
theorem noInternalHeader_append_newline (l : List Char) (h : NoInternalHeader l) :
    NoInternalHeader (l ++ ['\n']) := by
  intro a b hab
  rcases List.eq_nil_or_concat b with hb | ⟨b', cb, hb⟩
  · subst hb
    decide
  · subst hb
    have hab2 : l ++ ['\n'] = (a ++ '\n' :: b') ++ [cb] := by
      rw [hab]
      simp [List.append_assoc]
    obtain ⟨hl, hc⟩ := List.append_inj' hab2 rfl
    have hcb : cb = '\n' := by
      injection hc with h1 h2
      exact h1.symm
    subst hcb
    rw [List.concat_eq_append, isHeaderLineStart_append_newline, h a b' hl]

/-- `NoInternalHeader` survives trimming. -/
theorem noInternalHeader_trimChars (l : List Char) (h : NoInternalHeader l) :
    NoInternalHeader (trimChars l) := by
  obtain ⟨pre, suf, hps⟩ := trimChars_infix l
  intro a b hab
  cases hx : isHeaderLineStart b with
  | false => rfl
  | true =>
    have hl : l = (pre ++ a) ++ '\n' :: (b ++ suf) := by
      rw [hps, hab]
      simp [List.append_assoc]
    have h2 := h _ _ hl
    rw [isHeaderLineStart_of_append b suf hx] at h2
    exact absurd h2 (by decide)

/-- `splitBefore` always yields at least one group. -/
theorem splitBefore_ne_nil (p : α → Bool) (L : List α) : splitBefore p L ≠ [] := by
  cases L with
  | nil => exact List.cons_ne_nil _ _
  | cons a rest =>
    simp only [splitBefore]
    cases splitBefore p rest with
    | nil => exact List.cons_ne_nil _ _
    | cons g gs =>
      dsimp only
      by_cases hp : p a = true
      · rw [if_pos hp]
        exact List.cons_ne_nil _ _
      · rw [if_neg hp]
        exact List.cons_ne_nil _ _

/-- With no boundary element at all, everything stays in one group. -/
theorem splitBefore_all_false (p : α → Bool) :
    ∀ (L : List α), (∀ x ∈ L, p x = false) → splitBefore p L = [L] := by
  intro L
  induction L with
  | nil => intro h; rfl
  | cons a rest ih =>
    intro h
    simp only [splitBefore]
    rw [ih (fun x hx => h x (List.mem_cons_of_mem a hx))]
    dsimp only
    have hpa : p a = false := h a (List.mem_cons_self a rest)
    rw [if_neg (by simp [hpa])]

/-- A boundary-free block glues onto the first group of what follows. -/
theorem splitBefore_append_nohead (p : α → Bool) :
    ∀ (A M : List α), (∀ x ∈ A, p x = false) →
      ∀ g gs, splitBefore p M = g :: gs →
        splitBefore p (A ++ M) = (A ++ g) :: gs := by
  intro A
  induction A with
  | nil =>
    intro M h g gs hM
    simp only [List.nil_append]
    exact hM
  | cons a A' ih =>
    intro M h g gs hM
    rw [List.cons_append]
    simp only [splitBefore]
    rw [ih M (fun x hx => h x (List.mem_cons_of_mem a hx)) g gs hM]
    dsimp only
    have hpa : p a = false := h a (List.mem_cons_self a A')
    rw [if_neg (by simp [hpa])]
    rfl

/-- The first group of `splitBefore` is an initial block of the list. -/
theorem splitBefore_front (p : α → Bool) :
    ∀ (L : List α) (g0 : List α) (gs : List (List α)),
      splitBefore p L = g0 :: gs → ∃ B, L = g0 ++ B := by
  intro L
  induction L with
  | nil =>
    intro g0 gs h
    simp only [splitBefore] at h
    injection h with h1 h2
    exact ⟨[], by rw [← h1]; rfl⟩
  | cons a rest ih =>
    intro g0 gs h
    simp only [splitBefore] at h
    cases hsp : splitBefore p rest with
    | nil => exact absurd hsp (splitBefore_ne_nil p rest)
    | cons g0' gs' =>
      rw [hsp] at h
      dsimp only at h
      obtain ⟨B, hB⟩ := ih g0' gs' hsp
      by_cases hp : p a = true
      · rw [if_pos hp] at h
        injection h with h1 h2
        exact ⟨a :: rest, by rw [← h1]; rfl⟩
      · rw [if_neg hp] at h
        injection h with h1 h2
        exact ⟨B, by rw [← h1, List.cons_append, hB]⟩

/-- Every group of `splitBefore` is a contiguous block of the list. -/
theorem splitBefore_contig (p : α → Bool) :
    ∀ (L : List α) (g : List α), g ∈ splitBefore p L → ∃ A B, L = A ++ (g ++ B) := by
  intro L
  induction L with
  | nil =>
    intro g hg
    simp only [splitBefore, List.mem_singleton] at hg
    subst hg
    exact ⟨[], [], rfl⟩
  | cons a rest ih =>
    intro g hg
    simp only [splitBefore] at hg
    cases hsp : splitBefore p rest with
    | nil => exact absurd hsp (splitBefore_ne_nil p rest)
    | cons g0 gs =>
      rw [hsp] at hg
      dsimp only at hg
      by_cases hp : p a = true
      · rw [if_pos hp] at hg
        rcases List.mem_cons.mp hg with h1 | h1
        · subst h1
          exact ⟨[], a :: rest, rfl⟩
        rcases List.mem_cons.mp h1 with h2 | h2
        · subst h2
          obtain ⟨B, hB⟩ := splitBefore_front p rest g0 gs hsp
          exact ⟨[], B, by rw [hB]; rfl⟩
        · obtain ⟨A, B, hAB⟩ := ih g (by rw [hsp]; exact List.mem_cons_of_mem _ h2)
          exact ⟨a :: A, B, by rw [hAB]; rfl⟩
      · rw [if_neg hp] at hg
        rcases List.mem_cons.mp hg with h2 | h2
        · subst h2
          obtain ⟨B, hB⟩ := splitBefore_front p rest g0 gs hsp
          exact ⟨[], B, by rw [hB]; rfl⟩
        · obtain ⟨A, B, hAB⟩ := ih g (by rw [hsp]; exact List.mem_cons_of_mem _ h2)
          exact ⟨a :: A, B, by rw [hAB]; rfl⟩

/-- Elements of the groups come from the list. -/
theorem splitBefore_mem_subset (p : α → Bool) (L : List α) (g : List α)
    (hg : g ∈ splitBefore p L) : ∀ x ∈ g, x ∈ L := by
  obtain ⟨A, B, hAB⟩ := splitBefore_contig p L g hg
  intro x hx
  rw [hAB]
  exact List.mem_append_right A (List.mem_append_left B hx)

/-- The first group of `splitBefore` holds no boundary element, and every
later group is a boundary element followed by non-boundary elements. -/
theorem splitBefore_shape (p : α → Bool) :
    ∀ (L : List α), (∀ x ∈ (splitBefore p L).headD [], p x = false) ∧
      (∀ g ∈ (splitBefore p L).drop 1,
        ∃ y g', g = y :: g' ∧ p y = true ∧ ∀ x ∈ g', p x = false) := by
  intro L
  induction L with
  | nil =>
    constructor
    · intro x hx
      simp [splitBefore] at hx
    · intro g hg
      simp [splitBefore] at hg
  | cons a rest ih =>
    obtain ⟨ih1, ih2⟩ := ih
    cases hsp : splitBefore p rest with
    | nil => exact absurd hsp (splitBefore_ne_nil p rest)
    | cons g0 gs =>
      rw [hsp] at ih1 ih2
      simp only [List.headD_cons] at ih1
      simp only [List.drop_succ_cons, List.drop_zero] at ih2
      simp only [splitBefore, hsp]
      by_cases hp : p a = true
      · rw [if_pos hp]
        constructor
        · intro x hx
          simp at hx
        · intro g hg
          simp only [List.drop_succ_cons, List.drop_zero] at hg
          rcases List.mem_cons.mp hg with h1 | h1
          · exact ⟨a, g0, h1, hp, ih1⟩
          · exact ih2 g h1
      · rw [if_neg hp]
        constructor
        · intro x hx
          simp only [List.headD_cons] at hx
          rcases List.mem_cons.mp hx with h1 | h1
          · subst h1
            exact eq_false_of_ne_true hp
          · exact ih1 x h1
        · intro g hg
          simp only [List.drop_succ_cons, List.drop_zero] at hg
          exact ih2 g hg

/-- Each piece of the section split is the flattening of one group of
lines, and recovers that group under `linesKeep`. -/
theorem sectionPieces_group (l sec : List Char) (hsec : sec ∈ sectionPieces l) :
    ∃ g, g ∈ splitBefore isHeaderLineStart (linesKeep l) ∧ sec = g.flatten ∧
      linesKeep sec = g := by
  simp only [sectionPieces] at hsec
  have hmem : ∃ g, g ∈ splitBefore isHeaderLineStart (linesKeep l) ∧ g.flatten = sec := by
    cases hsp : splitBefore isHeaderLineStart (linesKeep l) with
    | nil => exact absurd hsp (splitBefore_ne_nil _ _)
    | cons g0 gs =>
      rw [hsp] at hsec
      cases g0 with
      | nil =>
        cases gs with
        | nil =>
          dsimp only at hsec
          obtain ⟨g, hg, hflat⟩ := List.mem_map.mp hsec
          exact ⟨g, hg, hflat⟩
        | cons g1 gs' =>
          dsimp only at hsec
          obtain ⟨g, hg, hflat⟩ := List.mem_map.mp hsec
          exact ⟨g, List.mem_cons_of_mem _ hg, hflat⟩
      | cons x g0' =>
        dsimp only at hsec
        obtain ⟨g, hg, hflat⟩ := List.mem_map.mp hsec
        exact ⟨g, hg, hflat⟩
  obtain ⟨g, hg, hflat⟩ := hmem
  refine ⟨g, hg, hflat.symm, ?_⟩
  rw [← hflat]
  obtain ⟨A, B, hAB⟩ := splitBefore_contig _ _ g hg
  cases hB : B with
  | nil =>
    apply linesKeep_of_suffix A l g
    rw [hAB, hB, List.append_nil]
  | cons b0 B' =>
    apply linesKeep_flatten_of_terminated
    intro ln hln
    obtain ⟨s, t, hst⟩ := List.append_of_mem hln
    apply linesKeep_mid_nl (A ++ s) l ln (t ++ B)
    · rw [hAB, hst]
      simp [List.append_assoc]
    · rw [hB]
      simp

/-- Characters of a section piece come from the text. -/
theorem sectionPieces_subset (l sec : List Char) (hsec : sec ∈ sectionPieces l) :
    ∀ c ∈ sec, c ∈ l := by
  obtain ⟨g, hg, hflat, _⟩ := sectionPieces_group l sec hsec
  intro c hc
  rw [hflat] at hc
  obtain ⟨ln, hln, hcln⟩ := List.mem_flatten.mp hc
  have hlnL : ln ∈ linesKeep l := splitBefore_mem_subset _ _ g hg ln hln
  rw [← linesKeep_flatten l]
  exact List.mem_flatten.mpr ⟨ln, hlnL, hcln⟩

/-- Section pieces have no internal header line. -/
theorem sectionPieces_nih (l sec : List Char) (hsec : sec ∈ sectionPieces l) :
    NoInternalHeader sec := by
  obtain ⟨g, hg, hflat, hlines⟩ := sectionPieces_group l sec hsec
  intro a b hab
  cases hx : isHeaderLineStart b with
  | false => rfl
  | true =>
    exfalso
    obtain ⟨ln, hmem, hflag⟩ := split_gives_tail_line a sec b hab hx
    rw [hlines] at hmem
    obtain ⟨h1, h2⟩ := splitBefore_shape isHeaderLineStart (linesKeep l)
    cases hsp : splitBefore isHeaderLineStart (linesKeep l) with
    | nil => exact absurd hsp (splitBefore_ne_nil _ _)
    | cons g0 gs =>
      rw [hsp] at hg h1 h2
      simp only [List.headD_cons] at h1
      simp only [List.drop_succ_cons, List.drop_zero] at h2
      rcases List.mem_cons.mp hg with hgh | hgt
      · subst hgh
        have hf := h1 ln (List.mem_of_mem_drop hmem)
        rw [hflag] at hf
        exact absurd hf (by decide)
      · obtain ⟨y, g', hgy, hpy, hg'⟩ := h2 g hgt
        rw [hgy] at hmem
        simp only [List.drop_succ_cons, List.drop_zero] at hmem
        have hf := hg' ln hmem
        rw [hflag] at hf
        exact absurd hf (by decide)

/-- The last element of a concatenation with a non-empty right part. -/
theorem getLast_append_right (a b : List Char) (hb : b ≠ []) :
    (a ++ b).getLast? = b.getLast? := by
  induction a with
  | nil => rfl
  | cons c a' ih =>
    have hab : a' ++ b ≠ [] := fun he => hb (List.append_eq_nil.mp he).2
    cases hx : a' ++ b with
    | nil => exact absurd hx hab
    | cons d t =>
      rw [List.cons_append, hx, List.getLast?_cons_cons, ← hx, ih]

/-- The head of a joined list is the head of its first piece. -/
theorem joinSep_head_eq (sep : Char) (s0 : List Char) (rest : List (List Char))
    (h0 : s0 ≠ []) : (joinSep sep (s0 :: rest)).head? = s0.head? := by
  cases rest with
  | nil => rfl
  | cons s1 rest' =>
    rw [joinSep_cons_cons]
    cases s0 with
    | nil => exact absurd rfl h0
    | cons a t => rfl

/-- The last character of a joined list is the last character of one of its
pieces. -/
theorem joinSep_getLast_eq (sep : Char) :
    ∀ (rest : List (List Char)) (s0 : List Char), (∀ x ∈ s0 :: rest, x ≠ []) →
      ∃ e, e ∈ s0 :: rest ∧ (joinSep sep (s0 :: rest)).getLast? = e.getLast? := by
  intro rest
  induction rest with
  | nil => intro s0 h; exact ⟨s0, List.mem_cons_self _ _, rfl⟩
  | cons s1 rest' ih =>
    intro s0 h
    obtain ⟨e, he, heq⟩ := ih s1 (fun x hx => h x (List.mem_cons_of_mem _ hx))
    refine ⟨e, List.mem_cons_of_mem _ he, ?_⟩
    have hJ : joinSep sep (s1 :: rest') ≠ [] :=
      joinSep_cons_ne_nil sep s1 rest' (h s1 (by simp))
    rw [joinSep_cons_cons, getLast_append_right _ _ (List.cons_ne_nil _ _),
      show sep :: joinSep sep (s1 :: rest') = [sep] ++ joinSep sep (s1 :: rest') from rfl,
      getLast_append_right _ _ hJ, heq]

/-- Characters of a join are the separator or characters of the pieces. -/
theorem joinSep_mem (sep : Char) :
    ∀ (gs : List (List Char)) (c : Char), c ∈ joinSep sep gs →
      c = sep ∨ ∃ g, g ∈ gs ∧ c ∈ g := by
  intro gs
  induction gs with
  | nil => intro c hc; simp [joinSep] at hc
  | cons s rest ih =>
    intro c hc
    cases rest with
    | nil => exact Or.inr ⟨s, by simp, hc⟩
    | cons s2 rest' =>
      rw [joinSep_cons_cons] at hc
      rcases List.mem_append.mp hc with h1 | h1
      · exact Or.inr ⟨s, by simp, h1⟩
      · rcases List.mem_cons.mp h1 with h2 | h2
        · exact Or.inl h2
        · rcases ih c h2 with h3 | ⟨g, hg, hcg⟩
          · exact Or.inl h3
          · exact Or.inr ⟨g, List.mem_cons_of_mem _ hg, hcg⟩

/-- Joining with a separator over non-empty parts splits over concatenation. -/
theorem joinSep_append_ne (sep : Char) :
    ∀ (A B : List (List Char)), A ≠ [] → B ≠ [] →
      joinSep sep (A ++ B) = joinSep sep A ++ sep :: joinSep sep B := by
  intro A
  induction A with
  | nil => intro B h hB; exact absurd rfl h
  | cons a A' ih =>
    intro B hA hB
    cases A' with
    | nil =>
      cases B with
      | nil => exact absurd rfl hB
      | cons b B' =>
        rw [List.cons_append, List.nil_append, joinSep_cons_cons]
        rfl
    | cons a2 A'' =>
      rw [List.cons_append,
        show (a2 :: A'') ++ B = a2 :: (A'' ++ B) from rfl, joinSep_cons_cons,
        show a2 :: (A'' ++ B) = (a2 :: A'') ++ B from rfl,
        ih B (List.cons_ne_nil _ _) hB, joinSep_cons_cons, List.append_assoc]
      rfl

/-- Joining joined blocks equals joining the flattened blocks. -/
theorem joinSep_flatten_blocks (sep : Char) :
    ∀ (blocks : List (List (List Char))), (∀ b ∈ blocks, b ≠ []) →
      joinSep sep (blocks.map (joinSep sep)) = joinSep sep blocks.flatten := by
  intro blocks
  induction blocks with
  | nil => intro h; rfl
  | cons b rest ih =>
    intro h
    cases rest with
    | nil =>
      rw [List.map_cons, List.map_nil, List.flatten_cons, List.flatten_nil,
        List.append_nil]
      rfl
    | cons b2 rest2 =>
      have hb : b ≠ [] := h b (by simp)
      have hb2 : b2 ≠ [] := h b2 (by simp)
      have hfl : (b2 :: rest2).flatten ≠ [] := by
        rw [List.flatten_cons]
        intro he
        exact hb2 (List.append_eq_nil.mp he).1
      rw [List.map_cons, List.map_cons, joinSep_cons_cons, ← List.map_cons,
        ih (fun x hx => h x (List.mem_cons_of_mem _ hx)),
        show (b :: b2 :: rest2).flatten = b ++ (b2 :: rest2).flatten from rfl,
        joinSep_append_ne sep b _ hb hfl]

/-- Reattach the separator to every piece but the last, as the section split
leaves it. -/
def withNL : List (List Char) → List (List Char)
  | [] => []
  | [s] => [s]
  | s :: s2 :: rest => (s ++ ['\n']) :: withNL (s2 :: rest)

/-- `withNL` keeps a list non-empty. -/
theorem withNL_ne_nil (bl : List (List Char)) (h : bl ≠ []) : withNL bl ≠ [] := by
  cases bl with
  | nil => exact absurd rfl h
  | cons s rest =>
    cases rest with
    | nil => exact List.cons_ne_nil _ _
    | cons s2 r2 => exact List.cons_ne_nil _ _

/-- Trimming the pieces of `withNL` recovers the trim-fixed pieces. -/
theorem map_trim_withNL :
    ∀ (bl : List (List Char)), (∀ x ∈ bl, trimChars x = x) →
      (withNL bl).map trimChars = bl := by
  intro bl
  induction bl with
  | nil => intro h; rfl
  | cons s rest ih =>
    intro h
    cases rest with
    | nil =>
      simp only [withNL, List.map_cons, List.map_nil]
      rw [h s (by simp)]
    | cons s2 rest2 =>
      simp only [withNL, List.map_cons]
      rw [trimChars_append_newline, h s (by simp),
        ih (fun x hx => h x (List.mem_cons_of_mem _ hx))]

/-- Joining pieces whose ends are not whitespace yields a trim-fixed list. -/
theorem trim_join_entries (entries : List (List Char)) (hne : entries ≠ [])
    (hP : ∀ e ∈ entries, e ≠ [] ∧
      (∀ c, e.head? = some c → jsIsSpace c = false) ∧
      (∀ c, e.getLast? = some c → jsIsSpace c = false)) :
    trimChars (joinSep '\n' entries) = joinSep '\n' entries := by
  cases entries with
  | nil => exact absurd rfl hne
  | cons e0 rest =>
    apply trimChars_eq_self
    · intro c hc
      obtain ⟨h0ne, h0h, _⟩ := hP e0 (List.mem_cons_self _ _)
      rw [joinSep_head_eq '\n' e0 rest h0ne] at hc
      exact h0h c hc
    · intro c hc
      obtain ⟨e, he, heq⟩ := joinSep_getLast_eq '\n' rest e0
        (fun x hx => (hP x hx).1)
      rw [heq] at hc
      exact (hP e he).2.2 c hc

/-- A section containing a newline is never a phantom header. -/
theorem phantom_false_of_newline (sec : List Char) (h : sec.contains '\n' = true) :
    isPhantomHeader sec = false := by
  rw [isPhantomHeader, h]
  rfl

/-- The join of at least two pieces contains the separator. -/
theorem joinSep_contains_sep (sep : Char) (a b : List Char)
    (rest : List (List Char)) : (joinSep sep (a :: b :: rest)).contains sep = true := by
  rw [joinSep_cons_cons]
  have hm : sep ∈ a ++ sep :: joinSep sep (b :: rest) :=
    List.mem_append_right _ (List.mem_cons_self _ _)
  exact List.elem_eq_true_of_mem hm

/-- The entry list the normalizer builds on input without a `<`: sections
are only trimmed, then empty and phantom entries are dropped. -/
def cleanEntries (l : List Char) : List (List Char) :=
  (((sectionPieces l).map trimChars).filter (fun sec => sec ≠ [])).filter
    (fun sec => !(isPhantomHeader sec))

/-- `filterDiff` written without its intermediate `let` bindings. -/
theorem filterDiff_eq (x : String) :
    filterDiff x = String.mk (trimChars (joinSep '\n'
      ((((sectionPieces x.data).map processSection).filter
          (fun sec => sec ≠ [])).filter
        (fun sec => !(isPhantomHeader sec))))) := rfl

/-- On input without a `<` the normalizer is trim, filter and join of the
clean entries. -/
theorem filterDiff_nolt_eq (x : String) (h : ('<' : Char) ∉ x.data) :
    filterDiff x = String.mk (trimChars (joinSep '\n' (cleanEntries x.data))) := by
  rw [filterDiff_eq, cleanEntries]
  have hmap : (sectionPieces x.data).map processSection
      = (sectionPieces x.data).map trimChars := by
    apply List.map_congr_left
    intro sec hsec
    apply processSection_nolt
    intro hm
    exact h (sectionPieces_subset x.data sec hsec '<' hm)
  rw [hmap]

/-- The properties every clean entry enjoys. -/
theorem cleanEntries_spec (l : List Char) :
    ∀ e ∈ cleanEntries l, e ≠ [] ∧ isPhantomHeader e = false ∧
      (∀ c, e.head? = some c → jsIsSpace c = false) ∧
      (∀ c, e.getLast? = some c → jsIsSpace c = false) ∧
      NoInternalHeader e ∧ trimChars e = e ∧ (∀ c ∈ e, c ∈ l) := by
  intro e he
  rw [cleanEntries] at he
  have hph : (!(isPhantomHeader e)) = true := (List.mem_filter.mp he).2
  have he1 := (List.mem_filter.mp he).1
  have hne' := (List.mem_filter.mp he1).2
  have he2 := (List.mem_filter.mp he1).1
  obtain ⟨sec, hsec, htrim⟩ := List.mem_map.mp he2
  have hene : e ≠ [] := of_decide_eq_true hne'
  refine ⟨hene, ?_, ?_, ?_, ?_, ?_, ?_⟩
  · cases hx : isPhantomHeader e
    · rfl
    · rw [hx] at hph
      exact absurd hph (by decide)
  · rw [← htrim]
    exact trimChars_head_ns sec
  · rw [← htrim]
    exact trimChars_last_ns sec
  · rw [← htrim]
    exact noInternalHeader_trimChars sec (sectionPieces_nih l sec hsec)
  · rw [← htrim]
    exact trimChars_idem sec
  · intro c hc
    rw [← htrim] at hc
    exact sectionPieces_subset l sec hsec c (trimChars_subset sec c hc)

/-- Splitting the newline-join of trim-fixed entries on header lines: the
groups flatten to the entries re-partitioned into consecutive non-empty
blocks, each block rejoined (headerless entries merge into the preceding
block), with the separator reattached to every piece but the last; a
leading empty group appears exactly when the first entry opens a section. -/
theorem splitBefore_join_entries :
    ∀ (tl : List (List Char)) (e0 : List Char),
      (∀ e ∈ e0 :: tl, e ≠ [] ∧ NoInternalHeader e) →
      ∃ (blocks gss : List (List (List Char))),
        blocks ≠ [] ∧ (∀ b ∈ blocks, b ≠ []) ∧ blocks.flatten = e0 :: tl ∧
        (∀ g ∈ gss, g ≠ []) ∧
        gss.map List.flatten = withNL (blocks.map (joinSep '\n')) ∧
        splitBefore isHeaderLineStart (linesKeep (joinSep '\n' (e0 :: tl))) =
          (if isHeaderLineStart e0 = true then [] :: gss else gss) := by
  intro tl
  induction tl with
  | nil =>
    intro e0 hP
    obtain ⟨hne, hnih⟩ := hP e0 (List.mem_cons_self _ _)
    cases hL : linesKeep e0 with
    | nil => exact absurd hL (linesKeep_ne_nil e0 hne)
    | cons fl tailL =>
      have hfl : isHeaderLineStart fl = isHeaderLineStart e0 :=
        isHeaderLineStart_head_linesKeep e0 fl (by rw [hL]; rfl)
      have htails : ∀ x ∈ tailL, isHeaderLineStart x = false := by
        intro x hx
        apply tail_lines_nonheader e0 hnih
        rw [hL]
        simpa using hx
      refine ⟨[[e0]], [fl :: tailL], List.cons_ne_nil _ _, ?_, by simp, ?_, ?_, ?_⟩
      · intro b hb
        rw [List.mem_singleton] at hb
        subst hb
        exact List.cons_ne_nil _ _
      · intro g hg
        rw [List.mem_singleton] at hg
        subst hg
        exact List.cons_ne_nil _ _
      · have hfe : (fl :: tailL).flatten = e0 := by rw [← hL, linesKeep_flatten]
        simp only [List.map_cons, List.map_nil, hfe]
        rfl
      · show splitBefore isHeaderLineStart (linesKeep e0) = _
        rw [hL]
        simp only [splitBefore, splitBefore_all_false isHeaderLineStart tailL htails]
        rw [hfl]
  | cons e1 tl' ih =>
    intro e0 hP
    obtain ⟨hne0, hnih0⟩ := hP e0 (List.mem_cons_self _ _)
    obtain ⟨blocks', gss', hbne', hbnn', hbfl', hgnn', hgmap', hsp'⟩ :=
      ih e1 (fun e he => hP e (List.mem_cons_of_mem _ he))
    cases hA : linesKeep (e0 ++ ['\n']) with
    | nil => exact absurd hA (linesKeep_ne_nil _ (by simp))
    | cons fl0 tail0 =>
      have hfl0 : isHeaderLineStart fl0 = isHeaderLineStart e0 := by
        rw [isHeaderLineStart_head_linesKeep (e0 ++ ['\n']) fl0 (by rw [hA]; rfl),
          isHeaderLineStart_append_newline]
      have htail0 : ∀ x ∈ tail0, isHeaderLineStart x = false := by
        intro x hx
        apply tail_lines_nonheader (e0 ++ ['\n'])
          (noInternalHeader_append_newline e0 hnih0)
        rw [hA]
        simpa using hx
      have hflA : (fl0 :: tail0).flatten = e0 ++ ['\n'] := by
        rw [← hA, linesKeep_flatten]
      have hLK : linesKeep (joinSep '\n' (e0 :: e1 :: tl')) =
          (fl0 :: tail0) ++ linesKeep (joinSep '\n' (e1 :: tl')) := by
        rw [joinSep_cons_cons, linesKeep_append_nl, hA]
      by_cases hf1 : isHeaderLineStart e1 = true
      · rw [if_pos hf1] at hsp'
        have hinner : splitBefore isHeaderLineStart
            (tail0 ++ linesKeep (joinSep '\n' (e1 :: tl'))) = tail0 :: gss' := by
          rw [splitBefore_append_nohead _ tail0 _ htail0 [] gss' hsp',
            List.append_nil]
        refine ⟨[e0] :: blocks', (fl0 :: tail0) :: gss', List.cons_ne_nil _ _,
          ?_, ?_, ?_, ?_, ?_⟩
        · intro b hb
          rcases List.mem_cons.mp hb with h1 | h1
          · subst h1; exact List.cons_ne_nil _ _
          · exact hbnn' b h1
        · rw [List.flatten_cons, hbfl']
          rfl
        · intro g hg
          rcases List.mem_cons.mp hg with h1 | h1
          · subst h1; exact List.cons_ne_nil _ _
          · exact hgnn' g h1
        · cases hbm : blocks'.map (joinSep '\n') with
          | nil => exact absurd (List.map_eq_nil_iff.mp hbm) hbne'
          | cons m0 ms =>
            simp only [List.map_cons, hflA, hgmap', hbm]
            rfl
        · show splitBefore _ (linesKeep (joinSep '\n' (e0 :: e1 :: tl'))) = _
          rw [hLK]
          show splitBefore _
            (fl0 :: (tail0 ++ linesKeep (joinSep '\n' (e1 :: tl')))) = _
          simp only [splitBefore, hinner]
          rw [hfl0]
      · have hf1' : isHeaderLineStart e1 = false := eq_false_of_ne_true hf1
        rw [hf1'] at hsp'
        simp only [Bool.false_eq_true, if_false] at hsp'
        have hgne' : gss' ≠ [] := by
          intro he
          rw [he] at hgmap'
          exact withNL_ne_nil _ (fun hm => hbne' (List.map_eq_nil_iff.mp hm)) hgmap'.symm
        cases gss' with
        | nil => exact absurd rfl hgne'
        | cons g0 gs2 =>
          cases blocks' with
          | nil => exact absurd rfl hbne'
          | cons b0 brest =>
            have hinner : splitBefore isHeaderLineStart
                (tail0 ++ linesKeep (joinSep '\n' (e1 :: tl'))) =
                  (tail0 ++ g0) :: gs2 :=
              splitBefore_append_nohead _ tail0 _ htail0 g0 gs2 hsp'
            have hb0ne : b0 ≠ [] := hbnn' b0 (List.mem_cons_self _ _)
            have hhead : (fl0 :: (tail0 ++ g0)).flatten = (e0 ++ ['\n']) ++ g0.flatten := by
              have h0 : (fl0 :: (tail0 ++ g0)).flatten
                  = (fl0 :: tail0).flatten ++ g0.flatten := by
                simp [List.append_assoc]
              rw [h0, hflA]
            refine ⟨(e0 :: b0) :: brest, (fl0 :: (tail0 ++ g0)) :: gs2,
              List.cons_ne_nil _ _, ?_, ?_, ?_, ?_, ?_⟩
            · intro b hb
              rcases List.mem_cons.mp hb with h1 | h1
              · subst h1; exact List.cons_ne_nil _ _
              · exact hbnn' b (List.mem_cons_of_mem _ h1)
            · rw [List.flatten_cons] at hbfl' ⊢
              rw [List.cons_append, hbfl']
            · intro g hg
              rcases List.mem_cons.mp hg with h1 | h1
              · subst h1; exact List.cons_ne_nil _ _
              · exact hgnn' g (List.mem_cons_of_mem _ h1)
            · obtain ⟨c0, b0', rfl⟩ : ∃ c0 b0', b0 = c0 :: b0' := by
                cases b0 with
                | nil => exact absurd rfl hb0ne
                | cons a b => exact ⟨a, b, rfl⟩
              cases brest with
              | nil =>
                simp only [List.map_cons, List.map_nil, withNL] at hgmap'
                injection hgmap' with hg0 hgs2
                simp only [List.map_cons, List.map_nil, withNL]
                rw [hgs2, hhead, hg0, joinSep_cons_cons]
                simp [List.append_assoc]
              | cons b1 brest2 =>
                simp only [List.map_cons, withNL] at hgmap'
                injection hgmap' with hg0 hgs2
                simp only [List.map_cons, withNL]
                rw [hhead, hg0, hgs2, joinSep_cons_cons]
                simp [List.append_assoc]
            · show splitBefore _ (linesKeep (joinSep '\n' (e0 :: e1 :: tl'))) = _
              rw [hLK]
              show splitBefore _
                (fl0 :: (tail0 ++ linesKeep (joinSep '\n' (e1 :: tl')))) = _
              simp only [splitBefore, hinner]
              rw [hfl0]

/-- The section split of the newline-join of trim-fixed entries: the pieces
are the joins of a consecutive block partition of the entries, each
non-final piece keeping a trailing newline. -/
theorem sectionPieces_join_entries (entries : List (List Char)) (hne : entries ≠ [])
    (hP : ∀ e ∈ entries, e ≠ [] ∧ NoInternalHeader e) :
    ∃ blocks : List (List (List Char)), blocks ≠ [] ∧ (∀ b ∈ blocks, b ≠ []) ∧
      blocks.flatten = entries ∧
      sectionPieces (joinSep '\n' entries) = withNL (blocks.map (joinSep '\n')) := by
  cases entries with
  | nil => exact absurd rfl hne
  | cons e0 tl =>
    obtain ⟨blocks, gss, hbne, hbnn, hbfl, hgnn, hgmap, hsp⟩ :=
      splitBefore_join_entries tl e0 hP
    refine ⟨blocks, hbne, hbnn, hbfl, ?_⟩
    simp only [sectionPieces]
    rw [hsp]
    have hgssne : gss ≠ [] := by
      intro he
      rw [he] at hgmap
      exact withNL_ne_nil _ (fun hm => hbne (List.map_eq_nil_iff.mp hm)) hgmap.symm
    by_cases hf0 : isHeaderLineStart e0 = true
    · rw [if_pos hf0]
      cases gss with
      | nil => exact absurd rfl hgssne
      | cons g gs =>
        dsimp only
        exact hgmap
    · have hf0' : isHeaderLineStart e0 = false := eq_false_of_ne_true hf0
      rw [hf0']
      simp only [Bool.false_eq_true, if_false]
      cases gss with
      | nil => exact absurd rfl hgssne
      | cons g gs =>
        cases g with
        | nil => exact absurd rfl (hgnn [] (List.mem_cons_self _ _))
        | cons x g' =>
          dsimp only
          exact hgmap

/-- C7 amended: the diff-text normalizer is idempotent on every diff text
that contains no `<` character, i.e. no candidate removed-line of a
label-churn block; `filterDiff (filterDiff x) = filterDiff x` for such x. -/
theorem c7_amended (x : String) (h : ('<' : Char) ∉ x.data) :
    filterDiff (filterDiff x) = filterDiff x := by
  rw [filterDiff_nolt_eq x h]
  by_cases hE : cleanEntries x.data = []
  · rw [hE]
    rfl
  · have hspec := cleanEntries_spec x.data
    have hPne : ∀ e ∈ cleanEntries x.data, e ≠ [] ∧ NoInternalHeader e := fun e he =>
      ⟨(hspec e he).1, (hspec e he).2.2.2.2.1⟩
    have hPtrim : ∀ e ∈ cleanEntries x.data, e ≠ [] ∧
        (∀ c, e.head? = some c → jsIsSpace c = false) ∧
        (∀ c, e.getLast? = some c → jsIsSpace c = false) := fun e he =>
      ⟨(hspec e he).1, (hspec e he).2.2.1, (hspec e he).2.2.2.1⟩
    have htrimO : trimChars (joinSep '\n' (cleanEntries x.data))
        = joinSep '\n' (cleanEntries x.data) :=
      trim_join_entries _ hE hPtrim
    rw [htrimO]
    have hOlt : ('<' : Char) ∉ (String.mk (joinSep '\n' (cleanEntries x.data))).data := by
      show ('<' : Char) ∉ joinSep '\n' (cleanEntries x.data)
      intro hm
      rcases joinSep_mem '\n' _ '<' hm with h1 | ⟨e, he, hce⟩
      · exact absurd h1 (by decide)
      · exact h ((hspec e he).2.2.2.2.2.2 '<' hce)
    rw [filterDiff_nolt_eq _ hOlt]
    obtain ⟨blocks, hbne, hbnn, hbfl, hsp⟩ :=
      sectionPieces_join_entries (cleanEntries x.data) hE hPne
    have hdata : (String.mk (joinSep '\n' (cleanEntries x.data))).data
        = joinSep '\n' (cleanEntries x.data) := rfl
    rw [hdata]
    have hblocktrim : ∀ bj ∈ blocks.map (joinSep '\n'), trimChars bj = bj := by
      intro bj hbj
      obtain ⟨b, hb, hj⟩ := List.mem_map.mp hbj
      subst hj
      apply trim_join_entries b (hbnn b hb)
      intro e he
      exact hPtrim e (by rw [← hbfl]; exact List.mem_flatten.mpr ⟨b, hb, he⟩)
    have hjne : ∀ bj ∈ blocks.map (joinSep '\n'), bj ≠ [] := by
      intro bj hbj
      obtain ⟨b, hb, hj⟩ := List.mem_map.mp hbj
      subst hj
      obtain ⟨e, b', rfl⟩ : ∃ e b', b = e :: b' := by
        cases b with
        | nil => exact absurd rfl (hbnn [] hb)
        | cons a t => exact ⟨a, t, rfl⟩
      refine joinSep_cons_ne_nil '\n' e b' ?_
      exact (hPne e (by
        rw [← hbfl]
        exact List.mem_flatten.mpr ⟨_, hb, List.mem_cons_self _ _⟩)).1
    have hph2 : ∀ bj ∈ blocks.map (joinSep '\n'), (!(isPhantomHeader bj)) = true := by
      intro bj hbj
      obtain ⟨b, hb, hj⟩ := List.mem_map.mp hbj
      subst hj
      obtain ⟨e, b', rfl⟩ : ∃ e b', b = e :: b' := by
        cases b with
        | nil => exact absurd rfl (hbnn [] hb)
        | cons a t => exact ⟨a, t, rfl⟩
      cases b' with
      | nil =>
        have he : e ∈ cleanEntries x.data := by
          rw [← hbfl]
          exact List.mem_flatten.mpr ⟨[e], hb, List.mem_cons_self _ _⟩
        show (!(isPhantomHeader (joinSep '\n' [e]))) = true
        rw [show joinSep '\n' [e] = e from rfl, (hspec e he).2.1]
        rfl
      | cons e2 b'' =>
        rw [phantom_false_of_newline _ (joinSep_contains_sep '\n' e e2 b'')]
        rfl
    have hclean : cleanEntries (joinSep '\n' (cleanEntries x.data))
        = blocks.map (joinSep '\n') := by
      rw [cleanEntries, hsp, map_trim_withNL _ hblocktrim,
        List.filter_eq_self.mpr (fun a ha => decide_eq_true (hjne a ha)),
        List.filter_eq_self.mpr hph2]
    rw [hclean, joinSep_flatten_blocks '\n' blocks hbnn, hbfl, htrimO]

/-- C7 amended witness: a concrete two-section diff text without `<` on
which the first and second normalizer passes agree. -/
theorem c7_amended_witness :
    (('<' : Char) ∉ ("===== a/b ======\nfoo\nbar\n===== c/d ======\nbaz\n" : String).data) ∧
      filterDiff (filterDiff "===== a/b ======\nfoo\nbar\n===== c/d ======\nbaz\n")
        = filterDiff "===== a/b ======\nfoo\nbar\n===== c/d ======\nbaz\n" :=
  ⟨by decide, c7_amended _ (by decide)⟩

/-! ### C8: a noise-only section normalizes to the empty string -/

/-- Shape of a successful digits parse: a non-empty digit prefix. -/
theorem parseDigits1_shape (l l' : List Char) (h : parseDigits1 l = some l') :
    ∃ dd, l = dd ++ l' ∧ dd ≠ [] ∧ ∀ c ∈ dd, c.isDigit = true := by
  rw [parseDigits1] at h
  by_cases he : (l.takeWhile (·.isDigit)).isEmpty
  · rw [if_pos he] at h
    exact absurd h (by simp)
  · rw [if_neg he] at h
    injection h with h2
    refine ⟨l.takeWhile (·.isDigit), ?_, ?_, ?_⟩
    · rw [← h2, List.takeWhile_append_dropWhile]
    · intro hnil
      rw [hnil] at he
      exact he rfl
    · intro c hc
      exact List.mem_takeWhile_imp hc

/-- Shape of a successful optional comma-digits parse. -/
theorem parseOptCommaDigits_shape (l l' : List Char)
    (h : parseOptCommaDigits l = some l') :
    l' = l ∨ ∃ dd, l = ',' :: (dd ++ l') ∧ dd ≠ [] ∧ ∀ c ∈ dd, c.isDigit = true := by
  cases l with
  | nil =>
    simp only [parseOptCommaDigits] at h
    injection h with h2
    exact Or.inl h2.symm
  | cons a t =>
    simp only [parseOptCommaDigits] at h
    by_cases ha : a = ','
    · rw [if_pos ha] at h
      cases hd : parseDigits1 t with
      | none =>
        rw [hd] at h
        injection h with h2
        exact Or.inl h2.symm
      | some r2 =>
        rw [hd] at h
        injection h with h2
        subst h2
        obtain ⟨dd, hdd, hne, hdig⟩ := parseDigits1_shape t r2 hd
        subst ha
        exact Or.inr ⟨dd, by rw [hdd], hne, hdig⟩
    · rw [if_neg ha] at h
      injection h with h2
      exact Or.inl h2.symm

/-- The newline character is not a digit, so digit runs are newline-free. -/
theorem newline_not_mem_digits (dd : List Char)
    (h : ∀ c ∈ dd, c.isDigit = true) : ('\n' : Char) ∉ dd := by
  intro hm
  exact absurd (h '\n' hm) (by decide)

/-- A successful change-marker parse consumes a newline-free block ending
in a digit, followed by the newline before the remainder. -/
theorem parseChangeMarker_shape (s r : List Char) (h : parseChangeMarker s = some r) :
    ∃ v d, s = (v ++ [d]) ++ '\n' :: r ∧ ('\n' : Char) ∉ v ∧ d.isDigit = true := by
  rw [parseChangeMarker, Option.bind_eq_some] at h
  obtain ⟨l1, h1, h⟩ := h
  rw [Option.bind_eq_some] at h
  obtain ⟨l2, h2, h⟩ := h
  obtain ⟨dd1, hs1, hne1, hdig1⟩ := parseDigits1_shape s l1 h1
  have hsh2 := parseOptCommaDigits_shape l1 l2 h2
  cases l2 with
  | nil => exact absurd h (by simp)
  | cons c2 l3 =>
    dsimp only at h
    by_cases hc2 : c2 = 'c'
    · rw [if_pos hc2, Option.bind_eq_some] at h
      obtain ⟨l4, h4, h⟩ := h
      rw [Option.bind_eq_some] at h
      obtain ⟨l5, h5, h⟩ := h
      obtain ⟨dd2, hs4, hne2, hdig2⟩ := parseDigits1_shape l3 l4 h4
      have hsh5 := parseOptCommaDigits_shape l4 l5 h5
      cases l5 with
      | nil => exact absurd h (by simp)
      | cons c5 l6 =>
        dsimp only at h
        by_cases hc5 : c5 = '\n'
        · rw [if_pos hc5] at h
          injection h with h6
          subst h6
          subst hc5
          subst hc2
          rcases hsh2 with h2eq | ⟨ddB, hB, hBne, hBdig⟩
          · rcases hsh5 with h5eq | ⟨ddC, hC, hCne, hCdig⟩
            · rcases List.eq_nil_or_concat dd2 with h0 | ⟨dd2', d, hdd2⟩
              · exact absurd h0 hne2
              refine ⟨dd1 ++ 'c' :: dd2', d, ?_, ?_, ?_⟩
              · rw [hs1, ← h2eq, hs4, ← h5eq, hdd2]
                simp [List.append_assoc]
              · intro hm
                rcases List.mem_append.mp hm with hm1 | hm2
                · exact newline_not_mem_digits dd1 hdig1 hm1
                · rcases List.mem_cons.mp hm2 with hm3 | hm4
                  · exact absurd hm3 (by decide)
                  · exact newline_not_mem_digits dd2 hdig2
                      (by rw [hdd2, List.concat_eq_append]; exact List.mem_append_left _ hm4)
              · exact hdig2 d (by rw [hdd2, List.concat_eq_append]; exact List.mem_append_right _ (by simp))
            · rcases List.eq_nil_or_concat ddC with h0 | ⟨ddC', d, hddC⟩
              · exact absurd h0 hCne
              refine ⟨dd1 ++ 'c' :: (dd2 ++ ',' :: ddC'), d, ?_, ?_, ?_⟩
              · rw [hs1, ← h2eq, hs4, hC, hddC]
                simp [List.append_assoc]
              · intro hm
                rcases List.mem_append.mp hm with hm1 | hm2
                · exact newline_not_mem_digits dd1 hdig1 hm1
                · rcases List.mem_cons.mp hm2 with hm3 | hm4
                  · exact absurd hm3 (by decide)
                  · rcases List.mem_append.mp hm4 with hm5 | hm6
                    · exact newline_not_mem_digits dd2 hdig2 hm5
                    · rcases List.mem_cons.mp hm6 with hm7 | hm8
                      · exact absurd hm7 (by decide)
                      · exact newline_not_mem_digits ddC hCdig
                          (by rw [hddC, List.concat_eq_append]; exact List.mem_append_left _ hm8)
              · exact hCdig d (by rw [hddC, List.concat_eq_append]; exact List.mem_append_right _ (by simp))
          · rcases hsh5 with h5eq | ⟨ddC, hC, hCne, hCdig⟩
            · rcases List.eq_nil_or_concat dd2 with h0 | ⟨dd2', d, hdd2⟩
              · exact absurd h0 hne2
              refine ⟨dd1 ++ ',' :: (ddB ++ 'c' :: dd2'), d, ?_, ?_, ?_⟩
              · rw [hs1, hB, hs4, ← h5eq, hdd2]
                simp [List.append_assoc]
              · intro hm
                rcases List.mem_append.mp hm with hm1 | hm2
                · exact newline_not_mem_digits dd1 hdig1 hm1
                · rcases List.mem_cons.mp hm2 with hm3 | hm4
                  · exact absurd hm3 (by decide)
                  · rcases List.mem_append.mp hm4 with hm5 | hm6
                    · exact newline_not_mem_digits ddB hBdig hm5
                    · rcases List.mem_cons.mp hm6 with hm7 | hm8
                      · exact absurd hm7 (by decide)
                      · exact newline_not_mem_digits dd2 hdig2
                          (by rw [hdd2, List.concat_eq_append]; exact List.mem_append_left _ hm8)
              · exact hdig2 d (by rw [hdd2, List.concat_eq_append]; exact List.mem_append_right _ (by simp))
            · rcases List.eq_nil_or_concat ddC with h0 | ⟨ddC', d, hddC⟩
              · exact absurd h0 hCne
              refine ⟨dd1 ++ ',' :: (ddB ++ 'c' :: (dd2 ++ ',' :: ddC')), d, ?_, ?_, ?_⟩
              · rw [hs1, hB, hs4, hC, hddC]
                simp [List.append_assoc]
              · intro hm
                rcases List.mem_append.mp hm with hm1 | hm2
                · exact newline_not_mem_digits dd1 hdig1 hm1
                · rcases List.mem_cons.mp hm2 with hm3 | hm4
                  · exact absurd hm3 (by decide)
                  · rcases List.mem_append.mp hm4 with hm5 | hm6
                    · exact newline_not_mem_digits ddB hBdig hm5
                    · rcases List.mem_cons.mp hm6 with hm7 | hm8
                      · exact absurd hm7 (by decide)
                      · rcases List.mem_append.mp hm8 with hm9 | hm10
                        · exact newline_not_mem_digits dd2 hdig2 hm9
                        · rcases List.mem_cons.mp hm10 with hm11 | hm12
                          · exact absurd hm11 (by decide)
                          · exact newline_not_mem_digits ddC hCdig
                              (by rw [hddC, List.concat_eq_append]; exact List.mem_append_left _ hm12)
              · exact hCdig d (by rw [hddC, List.concat_eq_append]; exact List.mem_append_right _ (by simp))
        · rw [if_neg hc5] at h
          exact absurd h (by simp)
    · rw [if_neg hc2] at h
      exact absurd h (by simp)

/-- Two decompositions at the first newline agree. -/
theorem first_newline_unique :
    ∀ (a a' b b' : List Char), ('\n' : Char) ∉ a → ('\n' : Char) ∉ a' →
      a ++ '\n' :: b = a' ++ '\n' :: b' → a = a' ∧ b = b' := by
  intro a
  induction a with
  | nil =>
    intro a' b b' ha ha' he
    cases a' with
    | nil =>
      injection he with h1 h2
      exact ⟨rfl, h2⟩
    | cons c a'' =>
      rw [List.nil_append, List.cons_append] at he
      injection he with h1 h2
      exact absurd (by rw [h1]; exact List.mem_cons_self _ _) ha'
  | cons c a'' ih =>
    intro a' b b' ha ha' he
    cases a' with
    | nil =>
      rw [List.nil_append, List.cons_append] at he
      injection he with h1 h2
      exact absurd (by rw [← h1]; exact List.mem_cons_self _ _) ha
    | cons c' a''' =>
      rw [List.cons_append, List.cons_append] at he
      injection he with h1 h2
      obtain ⟨hh, hb⟩ := ih a''' b b' (fun hm => ha (List.mem_cons_of_mem _ hm))
        (fun hm => ha' (List.mem_cons_of_mem _ hm)) h2
      exact ⟨by rw [h1, hh], hb⟩

/-- The change marker cannot parse when the first character is no digit. -/
theorem parseChangeMarker_none_nodigit (s : List Char)
    (h : ∀ c, s.head? = some c → c.isDigit = false) : parseChangeMarker s = none := by
  have hpd : parseDigits1 s = none := by
    cases s with
    | nil => rfl
    | cons c t =>
      rw [parseDigits1, if_pos]
      rw [List.takeWhile_cons, h c rfl]
      rfl
  rw [parseChangeMarker, hpd]
  rfl

/-- The change marker cannot parse from a position whose line ends with
`=`: the block before the first newline would have to end in a digit. -/
theorem parseChangeMarker_none_eqend (pre w : List Char)
    (hnl : ('\n' : Char) ∉ pre) :
    parseChangeMarker ((pre ++ ['=']) ++ '\n' :: w) = none := by
  cases hp : parseChangeMarker ((pre ++ ['=']) ++ '\n' :: w) with
  | none => rfl
  | some r =>
    obtain ⟨v, d, hs, hv, hd⟩ := parseChangeMarker_shape _ r hp
    have hvd : ('\n' : Char) ∉ v ++ [d] := by
      intro hm
      rcases List.mem_append.mp hm with h1 | h1
      · exact hv h1
      · rw [List.mem_singleton] at h1
        rw [← h1] at hd
        exact absurd hd (by decide)
    have hpre : ('\n' : Char) ∉ pre ++ ['='] := by
      intro hm
      rcases List.mem_append.mp hm with h1 | h1
      · exact hnl h1
      · rw [List.mem_singleton] at h1
        exact absurd h1 (by decide)
    obtain ⟨hu, _⟩ := first_newline_unique _ _ _ _ hvd hpre hs.symm
    have h1 : (v ++ [d]).getLast? = some d := by
      rw [getLast_append_right _ _ (by simp)]
      rfl
    have h2 : (pre ++ ['=']).getLast? = some '=' := by
      rw [getLast_append_right _ _ (by simp)]
      rfl
    rw [hu, h2] at h1
    injection h1 with h3
    rw [← h3] at hd
    exact absurd hd (by decide)

/-- The first matcher fails when the marker cannot parse and the head is
not `<`. -/
theorem matchInstanceBlock_none_of (s : List Char)
    (hpcm : parseChangeMarker s = none)
    (hhd : ∀ c, s.head? = some c → c ≠ '<') : matchInstanceBlock s = none := by
  rw [matchInstanceBlock, hpcm]
  simp only [Option.getD_none]
  cases s with
  | nil => rfl
  | cons c r1 =>
    dsimp only
    rw [if_neg (hhd c rfl)]

/-- `takeWhile` over a block satisfying the predicate followed by a
non-satisfying head. -/
theorem takeWhile_append_of_all (p : Char → Bool) :
    ∀ (dd r : List Char), (∀ c ∈ dd, p c = true) →
      (∀ c, r.head? = some c → p c = false) →
      (dd ++ r).takeWhile p = dd := by
  intro dd
  induction dd with
  | nil =>
    intro r _ hr
    cases r with
    | nil => rfl
    | cons c t => simp [List.takeWhile_cons, hr c rfl]
  | cons a dd' ih =>
    intro r hdd hr
    rw [List.cons_append, List.takeWhile_cons, if_pos (hdd a (List.mem_cons_self _ _)),
      ih r (fun c hc => hdd c (List.mem_cons_of_mem _ hc)) hr]

/-- `dropWhile` over a block satisfying the predicate followed by a
non-satisfying head. -/
theorem dropWhile_append_of_all (p : Char → Bool) :
    ∀ (dd r : List Char), (∀ c ∈ dd, p c = true) →
      (∀ c, r.head? = some c → p c = false) →
      (dd ++ r).dropWhile p = r := by
  intro dd
  induction dd with
  | nil =>
    intro r _ hr
    cases r with
    | nil => rfl
    | cons c t =>
      rw [List.nil_append, List.dropWhile_cons, if_neg (by simp [hr c rfl])]
  | cons a dd' ih =>
    intro r hdd hr
    rw [List.cons_append, List.dropWhile_cons, if_pos (hdd a (List.mem_cons_self _ _)),
      ih r (fun c hc => hdd c (List.mem_cons_of_mem _ hc)) hr]

/-- A digits parse consumes exactly a maximal digit block. -/
theorem parseDigits1_exact (dd r : List Char) (hne : dd ≠ [])
    (hdig : ∀ c ∈ dd, c.isDigit = true)
    (hr : ∀ c, r.head? = some c → c.isDigit = false) :
    parseDigits1 (dd ++ r) = some r := by
  have hie : dd.isEmpty = false := by
    cases dd with
    | nil => exact absurd rfl hne
    | cons a t => rfl
  rw [parseDigits1, takeWhile_append_of_all _ dd r hdig hr,
    if_neg (by simp [hie]), dropWhile_append_of_all _ dd r hdig hr]

/-- The optional comma-digits parse consumes nothing on a non-comma head. -/
theorem parseOptCommaDigits_other (l : List Char)
    (h : ∀ c, l.head? = some c → c ≠ ',') : parseOptCommaDigits l = some l := by
  cases l with
  | nil => rfl
  | cons a t =>
    simp only [parseOptCommaDigits]
    rw [if_neg (h a rfl)]

/-- A whitespace parse of a single space before non-space text. -/
theorem parseSpaces1_single (r : List Char)
    (hr : ∀ c, r.head? = some c → jsIsSpace c = false) :
    parseSpaces1 (' ' :: r) = some r := by
  rw [parseSpaces1, show (' ' :: r) = [' '] ++ r from rfl,
    takeWhile_append_of_all jsIsSpace [' '] r (by decide) hr,
    if_neg (by decide), dropWhile_append_of_all jsIsSpace [' '] r (by decide) hr]

/-- A literal parse of the literal itself. -/
theorem parseLit_self (pat X : List Char) : parseLit pat (pat ++ X) = some X := by
  have hpre : pat.isPrefixOf (pat ++ X) = true := by
    rw [List.isPrefixOf_iff_prefix]
    exact List.prefix_append pat X
  rw [parseLit, if_pos hpre, List.drop_left]

/-- `dropToEOL` stops at the first newline. -/
theorem dropToEOL_append (u z : List Char) (hu : ('\n' : Char) ∉ u) :
    dropToEOL (u ++ '\n' :: z) = '\n' :: z := by
  rw [dropToEOL]
  apply dropWhile_append_of_all _ u ('\n' :: z)
  · intro c hc
    exact decide_eq_true (fun he => hu (he ▸ hc))
  · intro c hc
    simp only [List.head?_cons, Option.some.injEq] at hc
    subst hc
    decide

/-- `dropOptNewline` eats exactly one leading newline. -/
theorem dropOptNewline_nl (r : List Char) : dropOptNewline ('\n' :: r) = r := by
  simp [dropOptNewline]

/-- The header line body of a noise-only diff: `===== path ======`. -/
def headerBody (p : List Char) : List Char :=
  "===== ".data ++ (p ++ " ======".data)

/-- The label-churn block of a noise-only diff: the change marker, the
removed instance-label line, the hunk separator and the added
instance-label line. -/
def churn (d1 d2 va vb : List Char) : List Char :=
  d1 ++ ('c' :: (d2 ++ ('\n' :: ('<' :: (' ' :: (instLabel ++ (va ++ ('\n' ::
    ("---\n".data ++ ('>' :: (' ' :: (instLabel ++ (vb ++ ['\n'])))))))))))))

/-- A noise-only diff text: one section header line plus one label-churn
block. -/
def noiseSection (p d1 d2 va vb : List Char) : List Char :=
  (headerBody p ++ ['\n']) ++ churn d1 d2 va vb

/-- The first replacement pattern matches the whole churn block. -/
theorem matchInstanceBlock_churn (d1 d2 va vb : List Char)
    (hd1 : d1 ≠ []) (hd1d : ∀ c ∈ d1, c.isDigit = true)
    (hd2 : d2 ≠ []) (hd2d : ∀ c ∈ d2, c.isDigit = true)
    (hva : ('\n' : Char) ∉ va) (hvb : ('\n' : Char) ∉ vb) :
    matchInstanceBlock (churn d1 d2 va vb) = some [] := by
  have hpcm : parseChangeMarker (churn d1 d2 va vb) =
      some ('<' :: (' ' :: (instLabel ++ (va ++ ('\n' ::
        ("---\n".data ++ ('>' :: (' ' :: (instLabel ++ (vb ++ ['\n'])))))))))) := by
    rw [churn, parseChangeMarker,
      parseDigits1_exact d1 _ hd1 hd1d (fun c hc => by
        simp only [List.head?_cons, Option.some.injEq] at hc
        subst hc
        decide)]
    rw [Option.some_bind,
      parseOptCommaDigits_other _ (fun c hc => by
        simp only [List.head?_cons, Option.some.injEq] at hc
        subst hc
        decide)]
    rw [Option.some_bind]
    dsimp only
    rw [if_pos rfl,
      parseDigits1_exact d2 _ hd2 hd2d (fun c hc => by
        simp only [List.head?_cons, Option.some.injEq] at hc
        subst hc
        decide)]
    rw [Option.some_bind,
      parseOptCommaDigits_other _ (fun c hc => by
        simp only [List.head?_cons, Option.some.injEq] at hc
        subst hc
        decide)]
    rw [Option.some_bind]
    dsimp only
    rw [if_pos rfl]
  have hlabhead : ∀ (X : List Char) (c : Char),
      (instLabel ++ X).head? = some c → jsIsSpace c = false := by
    intro X c hc
    have : (instLabel ++ X).head? = some 'a' := rfl
    rw [this] at hc
    injection hc with h1
    rw [← h1]
    decide
  rw [matchInstanceBlock, hpcm, Option.getD_some]
  dsimp only
  rw [if_pos rfl, parseSpaces1_single _ (hlabhead _), Option.some_bind,
    parseLit_self instLabel _, Option.some_bind, dropToEOL_append va _ hva]
  dsimp only
  rw [if_pos rfl, parseLit_self, Option.some_bind]
  dsimp only
  rw [if_pos rfl, parseSpaces1_single _ (hlabhead _), Option.some_bind,
    parseLit_self instLabel _, Option.some_bind,
    show vb ++ ['\n'] = vb ++ '\n' :: [] from rfl, dropToEOL_append vb _ hvb,
    dropOptNewline_nl]

/-- Exhausting any fuel on the empty list yields the empty list. -/
theorem replaceScanF_nil (f : List Char → Option (List Char)) :
    ∀ fuel, replaceScanF f fuel [] = [] := by
  intro fuel
  cases fuel with
  | zero => rfl
  | succ n => rfl

/-- A replacement scan walks unchanged past a block where the matcher
never fires. -/
theorem replaceScanF_skip (f : List Char → Option (List Char)) :
    ∀ (a m : List Char) (fuel : Nat),
      (∀ i, i < a.length → f (a.drop i ++ m) = none) →
      replaceScanF f (a.length + fuel) (a ++ m) = a ++ replaceScanF f fuel m := by
  intro a
  induction a with
  | nil =>
    intro m fuel _
    simp
  | cons c a' ih =>
    intro m fuel hnone
    have h0 : f (c :: (a' ++ m)) = none := by
      have h1 := hnone 0 (by simp)
      rw [List.drop_zero] at h1
      rw [← List.cons_append]
      exact h1
    rw [show (c :: a').length + fuel = (a'.length + fuel) + 1 from by
      simp [List.length_cons]
      omega]
    rw [List.cons_append]
    simp only [replaceScanF]
    rw [h0]
    dsimp only
    rw [ih m fuel (fun i hi => by
      have h2 := hnone (i + 1) (by simp; omega)
      rw [List.drop_succ_cons] at h2
      exact h2)]
    rfl

/-- When the matcher fires on the whole remainder, consuming everything,
the scan ends empty. -/
theorem replaceScanF_fire (f : List Char → Option (List Char)) (m : List Char)
    (hm : m ≠ []) (hf : f m = some []) :
    replaceScanF f m.length m = [] := by
  cases m with
  | nil => exact absurd rfl hm
  | cons c rest =>
    show replaceScanF f (rest.length + 1) (c :: rest) = []
    simp only [replaceScanF]
    rw [hf]
    dsimp only
    rw [if_pos (by simp), replaceScanF_nil]

/-- The header line of a noise-only section contains no newline. -/
theorem newline_not_mem_headerBody (p : List Char) (hp2 : ('\n' : Char) ∉ p) :
    ('\n' : Char) ∉ headerBody p := by
  intro hm
  rw [headerBody] at hm
  rcases List.mem_append.mp hm with h1 | h1
  · exact absurd h1 (by decide)
  rcases List.mem_append.mp h1 with h2 | h2
  · exact hp2 h2
  · exact absurd h2 (by decide)

/-- The header line of a noise-only section contains no `<`. -/
theorem lt_not_mem_headerBody (p : List Char) (hp3 : ('<' : Char) ∉ p) :
    ('<' : Char) ∉ headerBody p := by
  intro hm
  rw [headerBody] at hm
  rcases List.mem_append.mp hm with h1 | h1
  · exact absurd h1 (by decide)
  rcases List.mem_append.mp h1 with h2 | h2
  · exact hp3 h2
  · exact absurd h2 (by decide)

/-- The first matcher never fires inside the header line of a noise-only
section: the line ends in `=`, not in a digit, and holds no `<`. -/
theorem noiseSection_header_nomatch (p m : List Char) (hp2 : ('\n' : Char) ∉ p)
    (hp3 : ('<' : Char) ∉ p) :
    ∀ i, i < (headerBody p ++ ['\n']).length →
      matchInstanceBlock ((headerBody p ++ ['\n']).drop i ++ m) = none := by
  intro i hi
  have hsplit : " ======".data = " =====".data ++ ['='] := rfl
  have hhb : headerBody p = ("===== ".data ++ (p ++ " =====".data)) ++ ['='] := by
    rw [headerBody, hsplit]
    simp [List.append_assoc]
  by_cases hlast : i = (headerBody p).length
  · have hdrop : (headerBody p ++ ['\n']).drop i = ['\n'] := by
      rw [hlast, List.drop_left]
    rw [hdrop, List.singleton_append]
    apply matchInstanceBlock_none_of
    · apply parseChangeMarker_none_nodigit
      intro c hc
      simp only [List.head?_cons, Option.some.injEq] at hc
      subst hc
      decide
    · intro c hc
      simp only [List.head?_cons, Option.some.injEq] at hc
      subst hc
      decide
  · have hi2 : i < (headerBody p).length := by
      have hlen2 : (headerBody p ++ ['\n']).length = (headerBody p).length + 1 := by
        simp
      omega
    have hdrop : (headerBody p ++ ['\n']).drop i = (headerBody p).drop i ++ ['\n'] :=
      List.drop_append_of_le_length (le_of_lt hi2)
    have hBlen : i ≤ ("===== ".data ++ (p ++ " =====".data)).length := by
      have hl1 : (headerBody p).length
          = ("===== ".data ++ (p ++ " =====".data)).length + 1 := by
        rw [hhb]
        simp
      omega
    have hdrop2 : (headerBody p).drop i
        = ("===== ".data ++ (p ++ " =====".data)).drop i ++ ['='] := by
      rw [hhb]
      exact List.drop_append_of_le_length hBlen
    have hform : (((("===== ".data ++ (p ++ " =====".data)).drop i ++ ['=']) ++ ['\n']) ++ m)
        = (("===== ".data ++ (p ++ " =====".data)).drop i ++ ['=']) ++ '\n' :: m := by
      simp [List.append_assoc]
    rw [hdrop, hdrop2, hform]
    have hBnl : ('\n' : Char) ∉ ("===== ".data ++ (p ++ " =====".data)).drop i := by
      intro hm2
      have hm3 : ('\n' : Char) ∈ "===== ".data ++ (p ++ " =====".data) :=
        List.mem_of_mem_drop hm2
      rcases List.mem_append.mp hm3 with h1 | h1
      · exact absurd h1 (by decide)
      rcases List.mem_append.mp h1 with h2 | h2
      · exact hp2 h2
      · exact absurd h2 (by decide)
    apply matchInstanceBlock_none_of
    · exact parseChangeMarker_none_eqend _ m hBnl
    · intro c hc
      cases hu : ("===== ".data ++ (p ++ " =====".data)).drop i with
      | nil =>
        rw [hu] at hc
        simp only [List.nil_append, List.cons_append, List.head?_cons,
          Option.some.injEq] at hc
        subst hc
        decide
      | cons u0 u' =>
        rw [hu] at hc
        simp only [List.cons_append, List.head?_cons, Option.some.injEq] at hc
        subst hc
        have hmem : u0 ∈ "===== ".data ++ (p ++ " =====".data) := by
          apply List.mem_of_mem_drop (n := i)
          rw [hu]
          exact List.mem_cons_self _ _
        intro he
        subst he
        rcases List.mem_append.mp hmem with h1 | h1
        · exact absurd h1 (by decide)
        rcases List.mem_append.mp h1 with h2 | h2
        · exact hp3 h2
        · exact absurd h2 (by decide)

/-- The first replacement erases the churn block of a noise-only section
and keeps exactly its header line. -/
theorem replaceInstance_noise (p d1 d2 va vb : List Char)
    (hp2 : ('\n' : Char) ∉ p) (hp3 : ('<' : Char) ∉ p)
    (hd1 : d1 ≠ []) (hd1d : ∀ c ∈ d1, c.isDigit = true)
    (hd2 : d2 ≠ []) (hd2d : ∀ c ∈ d2, c.isDigit = true)
    (hva : ('\n' : Char) ∉ va) (hvb : ('\n' : Char) ∉ vb) :
    replaceInstance (noiseSection p d1 d2 va vb) = headerBody p ++ ['\n'] := by
  have hchne : churn d1 d2 va vb ≠ [] := by
    rw [churn]
    cases d1 with
    | nil => exact absurd rfl hd1
    | cons a t => simp
  rw [replaceInstance, replaceScan, noiseSection, List.length_append,
    replaceScanF_skip matchInstanceBlock _ _ _
      (noiseSection_header_nomatch p _ hp2 hp3),
    replaceScanF_fire matchInstanceBlock _ hchne
      (matchInstanceBlock_churn d1 d2 va vb hd1 hd1d hd2 hd2d hva hvb),
    List.append_nil]

/-- The header line body is trim-fixed: it starts and ends with `=`. -/
theorem trimChars_headerBody (p : List Char) : trimChars (headerBody p) = headerBody p := by
  apply trimChars_eq_self
  · intro c hc
    have hh : (headerBody p).head? = some '=' := rfl
    rw [hh] at hc
    injection hc with h1
    rw [← h1]
    decide
  · intro c hc
    have hg : (headerBody p).getLast? = some '=' := by
      rw [headerBody, getLast_append_right _ _ (by simp),
        getLast_append_right _ _ (by decide)]
      rfl
    rw [hg] at hc
    injection hc with h1
    rw [← h1]
    decide

/-- Processing a noise-only section leaves exactly its header line body. -/
theorem processSection_noise (p d1 d2 va vb : List Char)
    (hp2 : ('\n' : Char) ∉ p) (hp3 : ('<' : Char) ∉ p)
    (hd1 : d1 ≠ []) (hd1d : ∀ c ∈ d1, c.isDigit = true)
    (hd2 : d2 ≠ []) (hd2d : ∀ c ∈ d2, c.isDigit = true)
    (hva : ('\n' : Char) ∉ va) (hvb : ('\n' : Char) ∉ vb) :
    processSection (noiseSection p d1 d2 va vb) = headerBody p := by
  rw [processSection,
    replaceInstance_noise p d1 d2 va vb hp2 hp3 hd1 hd1d hd2 hd2d hva hvb,
    trimChars_append_newline, trimChars_headerBody,
    replacePartOf_nolt _ (lt_not_mem_headerBody p hp3), trimChars_headerBody]

/-- A noise-only section flattens into its five lines. -/
theorem noiseSection_flatten (p d1 d2 va vb : List Char) :
    noiseSection p d1 d2 va vb =
      ([headerBody p ++ ['\n'], (d1 ++ 'c' :: d2) ++ ['\n'],
        ('<' :: (' ' :: (instLabel ++ va))) ++ ['\n'], "---".data ++ ['\n'],
        ('>' :: (' ' :: (instLabel ++ vb))) ++ ['\n']] : List (List Char)).flatten := by
  rw [noiseSection, churn]
  have h1 : "---\n".data = "---".data ++ ['\n'] := rfl
  rw [h1]
  simp [List.append_assoc]

/-- The lines of a noise-only section. -/
theorem linesKeep_noise (p d1 d2 va vb : List Char)
    (hp2 : ('\n' : Char) ∉ p)
    (hd1d : ∀ c ∈ d1, c.isDigit = true) (hd2d : ∀ c ∈ d2, c.isDigit = true)
    (hva : ('\n' : Char) ∉ va) (hvb : ('\n' : Char) ∉ vb) :
    linesKeep (noiseSection p d1 d2 va vb) =
      [headerBody p ++ ['\n'], (d1 ++ 'c' :: d2) ++ ['\n'],
        ('<' :: (' ' :: (instLabel ++ va))) ++ ['\n'], "---".data ++ ['\n'],
        ('>' :: (' ' :: (instLabel ++ vb))) ++ ['\n']] := by
  rw [noiseSection_flatten p d1 d2 va vb]
  apply linesKeep_flatten_of_terminated
  intro ln hln
  simp only [List.mem_cons, List.not_mem_nil, or_false] at hln
  rcases hln with rfl | rfl | rfl | rfl | rfl
  · exact ⟨headerBody p, newline_not_mem_headerBody p hp2, rfl⟩
  · refine ⟨d1 ++ 'c' :: d2, ?_, rfl⟩
    intro hm
    rcases List.mem_append.mp hm with h1 | h1
    · exact absurd (hd1d '\n' h1) (by decide)
    rcases List.mem_cons.mp h1 with h2 | h2
    · exact absurd h2 (by decide)
    · exact absurd (hd2d '\n' h2) (by decide)
  · refine ⟨'<' :: (' ' :: (instLabel ++ va)), ?_, rfl⟩
    intro hm
    rcases List.mem_cons.mp hm with h1 | h1
    · exact absurd h1 (by decide)
    rcases List.mem_cons.mp h1 with h2 | h2
    · exact absurd h2 (by decide)
    rcases List.mem_append.mp h2 with h3 | h3
    · exact absurd h3 (by decide)
    · exact hva h3
  · exact ⟨"---".data, by decide, rfl⟩
  · refine ⟨'>' :: (' ' :: (instLabel ++ vb)), ?_, rfl⟩
    intro hm
    rcases List.mem_cons.mp hm with h1 | h1
    · exact absurd h1 (by decide)
    rcases List.mem_cons.mp h1 with h2 | h2
    · exact absurd h2 (by decide)
    rcases List.mem_append.mp h2 with h3 | h3
    · exact absurd h3 (by decide)
    · exact hvb h3

/-- A noise-only section is one single piece of the section split. -/
theorem sectionPieces_noise (p d1 d2 va vb : List Char)
    (hp2 : ('\n' : Char) ∉ p) (hd1 : d1 ≠ [])
    (hd1d : ∀ c ∈ d1, c.isDigit = true) (hd2d : ∀ c ∈ d2, c.isDigit = true)
    (hva : ('\n' : Char) ∉ va) (hvb : ('\n' : Char) ∉ vb) :
    sectionPieces (noiseSection p d1 d2 va vb) = [noiseSection p d1 d2 va vb] := by
  simp only [sectionPieces]
  rw [linesKeep_noise p d1 d2 va vb hp2 hd1d hd2d hva hvb]
  have htail : ∀ x ∈ [(d1 ++ 'c' :: d2) ++ ['\n'],
      ('<' :: (' ' :: (instLabel ++ va))) ++ ['\n'], "---".data ++ ['\n'],
      ('>' :: (' ' :: (instLabel ++ vb))) ++ ['\n']], isHeaderLineStart x = false := by
    intro x hx
    simp only [List.mem_cons, List.not_mem_nil, or_false] at hx
    rcases hx with rfl | rfl | rfl | rfl
    · obtain ⟨hd0, d1', rfl⟩ : ∃ hd0 d1', d1 = hd0 :: d1' := by
        cases d1 with
        | nil => exact absurd rfl hd1
        | cons a t => exact ⟨a, t, rfl⟩
      rw [isHeaderLineStart, List.cons_append, List.cons_append,
        show "===== ".data = '=' :: "==== ".data from rfl]
      apply isPrefixOf_cons_ne
      intro he
      have := hd1d hd0 (List.mem_cons_self _ _)
      rw [← he] at this
      exact absurd this (by decide)
    · rw [isHeaderLineStart, List.cons_append,
        show "===== ".data = '=' :: "==== ".data from rfl]
      exact isPrefixOf_cons_ne _ _ _ _ (by decide)
    · rw [isHeaderLineStart,
        show "---".data ++ ['\n'] = '-' :: ("--".data ++ ['\n']) from rfl,
        show "===== ".data = '=' :: "==== ".data from rfl]
      exact isPrefixOf_cons_ne _ _ _ _ (by decide)
    · rw [isHeaderLineStart, List.cons_append,
        show "===== ".data = '=' :: "==== ".data from rfl]
      exact isPrefixOf_cons_ne _ _ _ _ (by decide)
  have hT := splitBefore_all_false isHeaderLineStart _ htail
  have hL1 : isHeaderLineStart (headerBody p ++ ['\n']) = true := by
    rw [isHeaderLineStart_append_newline, isHeaderLineStart, headerBody,
      List.isPrefixOf_iff_prefix]
    exact List.prefix_append _ _
  have houter : splitBefore isHeaderLineStart
      ((headerBody p ++ ['\n']) :: [(d1 ++ 'c' :: d2) ++ ['\n'],
        ('<' :: (' ' :: (instLabel ++ va))) ++ ['\n'], "---".data ++ ['\n'],
        ('>' :: (' ' :: (instLabel ++ vb))) ++ ['\n']]) =
      [[], (headerBody p ++ ['\n']) :: [(d1 ++ 'c' :: d2) ++ ['\n'],
        ('<' :: (' ' :: (instLabel ++ va))) ++ ['\n'], "---".data ++ ['\n'],
        ('>' :: (' ' :: (instLabel ++ vb))) ++ ['\n']]] := by
    conv_lhs => rw [splitBefore]
    rw [hT]
    dsimp only
    rw [hL1]
    rfl
  rw [houter]
  dsimp only
  rw [List.map_cons, List.map_nil, noiseSection_flatten p d1 d2 va vb]

/-- The processed noise-only section is exactly a phantom header. -/
theorem isPhantomHeader_headerBody (p : List Char) (hp1 : ('/' : Char) ∈ p)
    (hp2 : ('\n' : Char) ∉ p) : isPhantomHeader (headerBody p) = true := by
  have hlen : (headerBody p).length = p.length + 13 := by
    rw [headerBody]
    simp [List.length_append]
  rw [isPhantomHeader]
  have hcon : (headerBody p).contains '\n' = false := by
    cases hx : (headerBody p).contains '\n' with
    | false => rfl
    | true =>
      exact absurd (List.mem_of_elem_eq_true hx) (newline_not_mem_headerBody p hp2)
  have hpre : "===== ".data.isPrefixOf (headerBody p) = true := by
    rw [List.isPrefixOf_iff_prefix, headerBody]
    exact List.prefix_append _ _
  have hsuf : " ======".data.isSuffixOf (headerBody p) = true := by
    rw [List.isSuffixOf_iff_suffix, headerBody, ← List.append_assoc]
    exact List.suffix_append _ _
  have hmid : ((headerBody p).drop 6).take ((headerBody p).length - 13) = p := by
    rw [headerBody, show (6 : Nat) = ("===== ".data).length from rfl, List.drop_left,
      show ("===== ".data ++ (p ++ " ======".data)).length - 13 = p.length from by
        rw [← headerBody, hlen]
        omega,
      List.take_left]
  have hd13 : decide (13 ≤ (headerBody p).length) = true := by
    apply decide_eq_true
    rw [hlen]
    omega
  have hc2 : p.contains '/' = true := List.elem_eq_true_of_mem hp1
  rw [hcon, hpre, hsuf, hmid, hd13, hc2]
  rfl

/-- C8: a diff text consisting solely of one `===== path ======` section
header plus one instance-label churn block (change marker, removed-value
line, separator, added-value line) normalizes to the empty string. -/
theorem c8_noise_only (p d1 d2 va vb : List Char)
    (hp1 : ('/' : Char) ∈ p) (hp2 : ('\n' : Char) ∉ p) (hp3 : ('<' : Char) ∉ p)
    (hd1 : d1 ≠ []) (hd1d : ∀ c ∈ d1, c.isDigit = true)
    (hd2 : d2 ≠ []) (hd2d : ∀ c ∈ d2, c.isDigit = true)
    (hva : ('\n' : Char) ∉ va) (hvb : ('\n' : Char) ∉ vb) :
    filterDiff (String.mk (noiseSection p d1 d2 va vb)) = "" := by
  rw [filterDiff_eq]
  have hdata : (String.mk (noiseSection p d1 d2 va vb)).data
      = noiseSection p d1 d2 va vb := rfl
  rw [hdata, sectionPieces_noise p d1 d2 va vb hp2 hd1 hd1d hd2d hva hvb,
    List.map_cons, List.map_nil,
    processSection_noise p d1 d2 va vb hp2 hp3 hd1 hd1d hd2 hd2d hva hvb]
  have hne : headerBody p ≠ [] := by
    have hh : (headerBody p).head? = some '=' := rfl
    intro he
    rw [he] at hh
    exact Option.noConfusion hh
  have h1 : List.filter (fun sec => sec ≠ []) [headerBody p] = [headerBody p] := by
    apply List.filter_eq_self.mpr
    intro a ha
    rw [List.mem_singleton] at ha
    subst ha
    exact decide_eq_true hne
  rw [h1]
  have h2 : List.filter (fun sec => !(isPhantomHeader sec)) [headerBody p] = [] := by
    rw [List.filter_cons, isPhantomHeader_headerBody p hp1 hp2]
    simp
  rw [h2]
  rfl

/-- C8 witness: a concrete noise-only section (header for `my-app/base`
plus an instance-label churn block) normalizes to the empty string. -/
theorem c8_noise_only_witness :
    filterDiff (String.mk (noiseSection "my-app/base".data "12".data "14".data
      " old".data " new".data)) = "" ∧ ('/' : Char) ∈ "my-app/base".data :=
  ⟨c8_noise_only "my-app/base".data "12".data "14".data " old".data " new".data
    (by decide) (by decide) (by decide) (by decide) (by decide) (by decide)
    (by decide) (by decide) (by decide), by decide⟩

/-- A sample application backed by this repository. -/
def appA : App :=
  { metadata := { name := "my-app" },
    spec := { source := { repoURL := "https://github.com/quizlet/cd-infra",
                          path := "apps/my-app",
                          targetRevision := "main" } },
    status := { sync := { status := SyncStatus.Synced } } }

/-- A resolved invocation (exit status 0) that nevertheless printed output. -/
def resCleanWithOutput : ExecResult :=
  { err := none, stdout := "some diff text", stderr := "" }

/-- A resolved invocation with empty output: the "clean" outcome. -/
def cleanResult : ExecResult :=
  { err := none, stdout := "", stderr := "" }

/-- A rejected invocation with empty output: the tool-failure outcome. -/
def resFailEmpty : ExecResult :=
  { err := some { code := 20, cmd := "argocd app diff my-app --local=apps/my-app" },
    stdout := "", stderr := "rpc error: permission denied" }

/-- A diff text on which `filterDiff` is not idempotent: the first pass
removes the interleaved part-of line (the second pattern), which makes the
remaining lines form a match of the first pattern that only a second pass
removes. -/
def cexNonIdem : String :=
  "< argocd.argoproj.io/instance: x\n< app.kubernetes.io/part-of: z\n---\n> argocd.argoproj.io/instance: y\n"

/-- A text whose auth-token value, read back as a pattern, can never match
itself: `a$b` requires an `a` at the end of the string followed by a `b`. -/
def cexScrub : String := "--auth-token=a$b and a$b again"

/-! ### C6 and C10: the application name filter -/

theorem reSearch_eps (s : List Char) : reSearch .eps s = true := by
  simp only [reSearch]
  apply List.any_eq_true.mpr
  refine ⟨0, List.mem_range.mpr (by omega), ?_⟩
  rw [reMatch_eps s _ 0 _ (bigFuel_pos .eps s)]
  rfl

/-- C6: the code's name filter coincides with the specification's
three-rule priority description, and every produced list is an
order-preserving subsequence of the input. -/
theorem c6_filter_by_name (apps : List App) (m : String) :
    filterAppsByName apps m = specFilterByName apps m ∧
      ∀ res, filterAppsByName apps m = some res → List.Sublist res apps := by
  constructor
  · by_cases hm : m = ""
    · subst hm
      rfl
    · by_cases hregex : (jsStartsWith m "/" && jsEndsWith m "/") = true
      · simp only [filterAppsByName, specFilterByName]
        rw [if_pos hregex, if_neg hm, if_pos hregex]
        cases hc : compileRE (String.mk ((m.data.drop 1).dropLast)) <;> simp [hc]
      · have hregex' : (jsStartsWith m "/" && jsEndsWith m "/") = false :=
          Bool.eq_false_iff.mpr hregex
        simp only [filterAppsByName, specFilterByName]
        rw [if_neg (by simp [hregex']), if_pos hm, if_neg hm, if_neg (by simp [hregex'])]
  · intro res hres
    simp only [filterAppsByName] at hres
    by_cases h1 : (jsStartsWith m "/" && jsEndsWith m "/") = true
    · rw [if_pos h1] at hres
      cases hc : compileRE (String.mk ((m.data.drop 1).dropLast)) with
      | none =>
        rw [hc] at hres
        cases hres
      | some r =>
        rw [hc] at hres
        cases hres
        exact List.filter_sublist _
    · rw [if_neg h1] at hres
      by_cases h2 : m ≠ ""
      · rw [if_pos h2] at hres
        cases hres
        exact List.filter_sublist _
      · rw [if_neg h2] at hres
        cases hres
        exact List.Sublist.refl _

/-- C10: the single-character matcher `/` takes the pattern branch, its
interior compiles to the empty pattern, and every application matches. -/
theorem c10_slash_matches_all (apps : List App) :
    filterAppsByName apps "/" = some apps := by
  have h1 : (jsStartsWith "/" "/" && jsEndsWith "/" "/") = true := rfl
  simp only [filterAppsByName]
  rw [if_pos h1]
  show some (apps.filter fun app => reSearch RE.eps app.metadata.name.data) = some apps
  rw [List.filter_eq_self.mpr fun a _ => reSearch_eps a.metadata.name.data]

/-! ### C9 (counterexample): the secret scrubber -/

set_option maxRecDepth 8192 in
/-- C9 counterexample: the captured token is compiled as a pattern, not
replaced as a literal; token value `a$b` never matches itself, so both of
its occurrences survive scrubbing. -/
theorem c9_counterexample :
    scrubSecrets cexScrub = some cexScrub ∧ jsIncludes cexScrub "a$b" = true :=
  ⟨by decide, by decide⟩

/-- A command line with a word-character token that also leaks elsewhere. -/
def scrubWitnessInput : String :=
  "argocd app diff x --auth-token=tok123 --server y tok123 z"

set_option maxRecDepth 8192 in
/-- Witness for C9 (amended) at a concrete word-character token. -/
theorem c9_amended_witness :
    scrubSecrets scrubWitnessInput =
        some (String.mk (litReplaceAll "tok123".data "***".data scrubWitnessInput.data)) ∧
      isFactorOf "tok123".data
        (litReplaceAll "tok123".data "***".data scrubWitnessInput.data) = false :=
  c9_amended scrubWitnessInput "tok123".data (by decide) (by decide)

/-! ### C1: report inclusion -/

/-- C1: the code drops every result whose normalized diff text is empty,
including results carrying a failure record — the failure detail never
renders.  At the failing input (one tool-failure result, as produced by the
diff stage) the composed block list is empty although the claim requires
the failure to appear. -/
theorem c1_failure_block_omitted :
    filteredDiffs [{ app := appA, diff := "", error := some resFailEmpty }] = [] ∧
      ({ app := appA, diff := "", error := some resFailEmpty } : Diff).error ≠ none :=
  ⟨rfl, by decide⟩

/-! ### C7: normalizer idempotence (counterexample) -/

set_option maxRecDepth 4096 in
/-- C7 counterexample: `filterDiff` is not idempotent — on `cexNonIdem` the
second application strictly reduces the text further. -/
theorem c7_counterexample :
    filterDiff (filterDiff cexNonIdem) ≠ filterDiff cexNonIdem := by
  decide

/-! ### C2: report reconciliation -/

/-- C2: after reconciliation the change request carries exactly one
marker-bearing comment when there is reportable content and exactly none
otherwise, for every prior comment list; and every marker-bearing comment
that survives is the newly posted one. -/
theorem c2_reconcile_unique_marker (existing : List String) (marker newBody : String)
    (hasContent : Bool) (h : jsIncludes newBody marker = true) :
    ((reconcileComments existing marker hasContent newBody).filter
        (fun c => jsIncludes c marker)).length = (if hasContent then 1 else 0) ∧
      ∀ c ∈ reconcileComments existing marker hasContent newBody,
        jsIncludes c marker = true → c = newBody ∧ hasContent = true := by
  have hold : (existing.filter (fun c => !(jsIncludes c marker))).filter
      (fun c => jsIncludes c marker) = [] := by
    rw [List.filter_eq_nil_iff]
    intro a ha
    have := List.of_mem_filter ha
    simp only [Bool.not_eq_true'] at this
    simp [this]
  constructor
  · rw [reconcileComments, List.filter_append, hold]
    cases hasContent with
    | false => simp
    | true => simp [h]
  · intro c hc hcm
    rw [reconcileComments] at hc
    rcases List.mem_append.mp hc with hl | hr
    · have := List.of_mem_filter hl
      simp only [Bool.not_eq_true'] at this
      rw [this] at hcm
      cases hcm
    · cases hasContent with
      | false => simp at hr
      | true =>
        simp only [if_true, List.mem_singleton] at hr
        exact ⟨hr, rfl⟩

/-- Witness for C2 at a concrete prior state with one stale marker comment. -/
theorem c2_reconcile_unique_marker_witness :
    ((reconcileComments ["## ArgoCD Diff on prod for commit old", "unrelated"]
          "## ArgoCD Diff on prod" true
          "## ArgoCD Diff on prod for commit abc1234").filter
        (fun c => jsIncludes c "## ArgoCD Diff on prod")).length = (if true then 1 else 0) ∧
      ∀ c ∈ reconcileComments ["## ArgoCD Diff on prod for commit old", "unrelated"]
          "## ArgoCD Diff on prod" true
          "## ArgoCD Diff on prod for commit abc1234",
        jsIncludes c "## ArgoCD Diff on prod" = true →
          c = "## ArgoCD Diff on prod for commit abc1234" ∧ true = true :=
  c2_reconcile_unique_marker _ _ _ _ (by decide)

/-! ### C3: classification of one diff invocation -/

/-- C3 counterexample: an invocation that resolves (no error) with non-empty
standard output is not classified at all — no successful-diff record is
produced, contradicting the claim's "successful diff regardless of exit
status". -/
theorem c3_counterexample :
    resCleanWithOutput.stdout ≠ "" ∧ diffStep appA resCleanWithOutput = [] ∧
      diffStep appA resCleanWithOutput ≠
        [{ app := appA, diff := resCleanWithOutput.stdout, error := none }] := by
  refine ⟨by decide, rfl, by decide⟩

/-- C3 amended: only rejected invocations are classified; among those,
non-empty stdout yields a successful diff record and empty stdout yields a
failure record that retains the stderr text and the error object carrying
the triggering command. -/
theorem c3_amended (a : App) (r : ExecResult) (h : r.err ≠ none) :
    (r.stdout ≠ "" → diffStep a r = [{ app := a, diff := r.stdout, error := none }]) ∧
      (r.stdout = "" → ∃ e : ExecResult,
        diffStep a r = [{ app := a, diff := "", error := some e }] ∧
          e.stderr = r.stderr ∧ e.err = r.err) := by
  obtain ⟨err, hr⟩ := Option.ne_none_iff_exists.mp h
  constructor
  · intro hs
    unfold diffStep
    rw [← hr]
    simp [hs]
  · intro hs
    refine ⟨r, ?_, rfl, rfl⟩
    unfold diffStep
    rw [← hr]
    simp [hs]

/-- Witness for C3 (amended) at a concrete rejected invocation. -/
theorem c3_amended_witness :
    ∃ e : ExecResult,
      diffStep appA resFailEmpty = [{ app := appA, diff := "", error := some e }] ∧
        e.stderr = resFailEmpty.stderr ∧ e.err = resFailEmpty.err :=
  (c3_amended appA resFailEmpty (by decide)).2 rfl

/-! ### C4: one DiffResult per selected application -/

/-- C4 counterexample: a selected application whose invocation reports
success with empty output (the "clean" outcome) yields no DiffResult at
all, not a DiffResult with empty diff text. -/
theorem c4_counterexample :
    runDiffStage [appA] (fun _ => cleanResult) = [] ∧ [appA].length = 1 :=
  ⟨rfl, rfl⟩

/-- C4 amended: the diff stage produces exactly one DiffResult per selected
application whose invocation was rejected, in selection order; applications
whose invocation resolves (including the clean outcome) produce none. -/
theorem c4_amended (apps : List App) (oracle : App → ExecResult) :
    runDiffStage apps oracle =
      (apps.filter fun a => (oracle a).err.isSome).map fun a =>
        if (oracle a).stdout ≠ "" then { app := a, diff := (oracle a).stdout, error := none }
        else { app := a, diff := "", error := some (oracle a) } := by
  induction apps with
  | nil => rfl
  | cons a rest ih =>
    rw [runDiffStage, List.flatMap_cons, List.filter_cons]
    cases ho : (oracle a).err with
    | none =>
      simp only [diffStep, ho, Option.isSome_none, Bool.false_eq_true, if_false,
        List.nil_append]
      simpa [runDiffStage, diffStep] using ih
    | some e =>
      simp only [diffStep, ho, Option.isSome_some, if_true, List.map_cons]
      rw [← apply_ite (fun v => [v]) ((oracle a).stdout ≠ ""), List.singleton_append]
      exact congrArg (List.cons _) ih

end ArgoCDDiff
